import Mathlib

/-!
# Verification of the `ok` JSON schema-validation library

Shallow embedding of the library's data model and validation pipeline.

The repository mixes several iterations of the same core.  The embedding
follows the sources cited by the development's claims:

* `Core` namespace — the accumulator-style pipeline of `validator.rs`
  (`Validator::exec`), `schema.rs` (`OkSchema::validate`), `error.rs`
  (flat `ValidationError` records, `type_error` / `test_error` /
  `json_error`) and `number.rs`.
* `Tree` namespace — the container pipeline of `array.rs`
  (`ArraySchema::validate_at`), `object.rs` (`ObjectSchema::validate`),
  together with the string/number/boolean schemas, over the recursive
  error taxonomy of the specification (the Result-style `Validator::exec`
  those files call is not present in the sources; it is modelled from the
  specification, see `Tree.execB`).
* shared — the `serde_json` value model and `JsonType::coerce` from
  `json.rs`, and the Rust string-to-number parsers they invoke.

Machine integers are modelled as `Nat`/`Int` with explicit range constants;
`f64` values are modelled as exact rationals (every finite double is a
rational; the few places where Rust rounds a value to the nearest double
are noted at the definition).
-/

/-! ## The `serde_json` value model

`serde_json::Number` stores a non-negative integer as `PosInt (u64)`, a
negative integer as `NegInt (i64)`, and any other finite double as
`Float (f64)`.  Non-finite doubles are not representable as numbers. -/

/-- Range constants of the Rust machine integers involved. -/
def i64MaxN : Nat := 2 ^ 63 - 1

def i64Max : Int := 2 ^ 63 - 1

def i64Min : Int := -(2 ^ 63)

def u64Max : Nat := 2 ^ 64 - 1

/-- `serde_json::Number`: `pos` is `PosInt(u64)`, `neg` is `NegInt(i64)`
(always negative in values built by `serde_json`), `float` is a finite
`f64`, modelled by its exact rational value. -/
inductive JNum where
  | pos (n : Nat)
  | neg (n : Int)
  | float (q : ℚ)

/-- `serde_json::Value`. -/
inductive Json where
  | null
  | bool (b : Bool)
  | num (n : JNum)
  | str (s : String)
  | arr (elems : List Json)
  | obj (fields : List (String × Json))

namespace Json

/-- `Value::is_boolean`. -/
def is_boolean : Json → Bool
  | .bool _ => true
  | _ => false

/-- `Value::is_string`. -/
def is_string : Json → Bool
  | .str _ => true
  | _ => false

/-- `Value::is_i64`: `PosInt` within the signed range, or any `NegInt`. -/
def is_i64 : Json → Bool
  | .num (.pos n) => n ≤ i64MaxN
  | .num (.neg _) => true
  | _ => false

/-- `Value::is_u64`: exactly the `PosInt` representation. -/
def is_u64 : Json → Bool
  | .num (.pos _) => true
  | _ => false

/-- `Value::is_f64`: exactly the `Float` representation. -/
def is_f64 : Json → Bool
  | .num (.float _) => true
  | _ => false

end Json

/-- `serde_json::to_value::<i64>`: non-negative values serialize as
`PosInt`, negative ones as `NegInt`. -/
def numOfInt (i : Int) : JNum :=
  if 0 ≤ i then .pos i.toNat else .neg i

/-- The Rust saturating cast `f64 as i64` applied to an integral value
(saturates at the ends of the signed 64-bit range). -/
def clampI64 (v : Int) : Int :=
  max i64Min (min i64Max v)

/-- The Rust saturating cast `f64 as u64` applied to a non-negative
integral value (saturates at `u64::MAX`). -/
def clampU64 (v : Int) : Nat :=
  min u64Max v.toNat

/-! ## Rust string-to-number parsing (`str::parse`) -/

/-- ASCII decimal digits, at least one, accumulated into a `Nat`
(`from_str_radix` digit loop). -/
def digitsToNat : List Char → Option Nat
  | [] => none
  | cs => cs.foldl
      (fun acc c =>
        match acc with
        | none => none
        | some n => if '0' ≤ c ∧ c ≤ '9' then some (n * 10 + (c.toNat - '0'.toNat)) else none)
      (some 0)

/-- The optional leading sign of a signed decimal literal. -/
def parseSign (cs : List Char) : Int × List Char :=
  match cs with
  | '+' :: r => (1, r)
  | '-' :: r => (-1, r)
  | r => (1, r)

/-- `str::parse::<i64>`: optional sign, one or more ASCII digits, value
within the signed 64-bit range. -/
def parseI64 (s : String) : Option Int :=
  match digitsToNat (parseSign s.data).2 with
  | none => none
  | some n =>
    if i64Min ≤ (parseSign s.data).1 * n ∧ (parseSign s.data).1 * n ≤ i64Max then
      some ((parseSign s.data).1 * n)
    else none

/-- `str::parse::<u64>`: optional plus sign, one or more ASCII digits,
value within the unsigned 64-bit range. -/
def parseU64 (s : String) : Option Nat :=
  let r : List Char :=
    match s.data with
    | '+' :: r => r
    | r => r
  match digitsToNat r with
  | none => none
  | some n => if n ≤ u64Max then some n else none

/-- Outcome of `str::parse::<f64>`: a finite value (exact rational) or a
non-finite one (`NaN` or an infinity, including overflow to infinity). -/
inductive FParse where
  | finite (q : ℚ)
  | nonfinite

/-- Largest finite double. -/
def f64MaxQ : ℚ := (2 ^ 53 - 1) * 2 ^ 971

/-- Mantissa-and-exponent decimal grammar of `str::parse::<f64>`:
`digits [. digits] [(e|E) [sign] digits]` with digits required in the
integer part, or `.digits` with a leading dot.  Returns the exact value. -/
def parseDecimal (cs : List Char) : Option ℚ :=
  let isDigit : Char → Bool := fun c => decide ('0' ≤ c ∧ c ≤ '9')
  let intPart := cs.takeWhile isDigit
  let rest1 := cs.dropWhile isDigit
  let hasDot : Bool := match rest1 with | '.' :: _ => true | _ => false
  let afterDot := match rest1 with | '.' :: r => r | r => r
  let fracPart := if hasDot then afterDot.takeWhile isDigit else []
  let rest2 := if hasDot then afterDot.dropWhile isDigit else rest1
  if intPart.isEmpty ∧ fracPart.isEmpty then none
  else
    let mantissa : ℚ :=
      (intPart.foldl (fun a c => a * 10 + ((c.toNat - '0'.toNat : Nat) : ℚ)) (0 : ℚ)) +
        (fracPart.foldl (fun a c => a * 10 + ((c.toNat - '0'.toNat : Nat) : ℚ)) (0 : ℚ)) /
          (10 : ℚ) ^ fracPart.length
    match rest2 with
    | [] => some mantissa
    | 'e' :: r | 'E' :: r =>
      let p : Int × List Char :=
        match r with
        | '+' :: r2 => (1, r2)
        | '-' :: r2 => (-1, r2)
        | r2 => (1, r2)
      match digitsToNat p.2 with
      | none => none
      | some e =>
        if 0 ≤ p.1 then some (mantissa * 10 ^ e) else some (mantissa / 10 ^ e)
    | _ => none

/-- `str::parse::<f64>`: optional sign; `inf`/`infinity`/`nan`
(case-insensitive) parse to non-finite values; otherwise the decimal
grammar.  Finite results are kept exact rather than rounded to the
nearest double; values beyond the largest double overflow to infinity
(the rounding at that boundary is idealized to the comparison with
`f64MaxQ`; no claim depends on values near the boundary). -/
def parseF64 (s : String) : Option FParse :=
  let p : Bool × List Char :=
    match s.data with
    | '+' :: r => (false, r)
    | '-' :: r => (true, r)
    | r => (false, r)
  let low := String.mk (p.2.map Char.toLower)
  if low = "inf" ∨ low = "infinity" ∨ low = "nan" then some .nonfinite
  else
    match parseDecimal p.2 with
    | none => none
    | some q =>
      let v := if p.1 then -q else q
      if f64MaxQ < |v| then some .nonfinite else some (.finite v)

/-! ## `JsonType` and coercion (`json.rs`) -/

/-- The semantic target kinds, `json.rs`. -/
inductive JsonType where
  | Array
  | Boolean
  | Float
  | Integer
  | None
  | Null
  | Number
  | Object
  | String
  | Unsigned

/-- `JsonType::as_str` (named without the namespace dot so that the
`String` in the signature denotes the string type, not the constructor). -/
def jsonTypeAsStr : JsonType → String
  | .Array => "Array"
  | .Boolean => "Boolean"
  | .Float => "Float"
  | .Integer => "Integer"
  | .None => "none"
  | .Null => "null"
  | .Number => "Number"
  | .Object => "Object"
  | .String => "String"
  | .Unsigned => "Unsigned Integer"

/-- `serde_json`'s `Display` for numbers, used by the `String` coercion
(`json.to_string()`).  Integral floats print with a trailing `.0` as in
Rust's shortest-round-trip formatting; the formatting of non-integral
floats is idealized (no claim depends on it). -/
def JNum.text : JNum → String
  | .pos n => toString n
  | .neg i => toString i
  | .float q => if q.den = 1 then toString q.num ++ ".0" else toString q

/-- `JsonType::coerce` (`json.rs` lines 23–129), branch for branch.  The
source's internal `unwrap`s (`as_str`, `as_f64`, `as_u64`, `to_json`)
are each guarded by the preceding `is_*` test, so the function is total;
the only value-producing subtleties are:

* `Integer`/`Unsigned` on an integral float use the saturating Rust cast
  (`clampI64` / `clampU64`);
* `Float` on a `PosInt` above the signed range converts it to a float
  (the rounding of values above 2^53 to the nearest double is idealized
  to the exact value; no claim depends on it);
* `Float` on a string parsing to a non-finite value returns `Json.null`,
  because `serde_json` serializes a non-finite `f64` as `null`;
* the catch-all arm (source line 127) returns the input verbatim for the
  `Array`, `None`, `Null` and `Number` targets.

Coercion failure is reported as `Except.error ()`; each caller attaches
its own structured type error (the two repository iterations build the
error value differently, but no claim depends on its message). -/
def JsonType.coerce : JsonType → Json → Except Unit Json
  | .Boolean, j =>
    match j with
    | .bool _ => .ok j
    | .str s =>
      if s = "true" then .ok (.bool true)
      else if s = "false" then .ok (.bool false)
      else .error ()
    | _ => .error ()
  | .Object, j =>
    match j with
    | .obj _ => .ok j
    | _ => .error ()
  | .Integer, j =>
    match j with
    | .num (.neg _) => .ok j
    | .num (.pos n) => if n ≤ i64MaxN then .ok j else .error ()
    | .num (.float q) =>
      if q.den = 1 then .ok (.num (numOfInt (clampI64 q.num))) else .error ()
    | .str s =>
      match parseI64 s with
      | some i => .ok (.num (numOfInt i))
      | none => .error ()
    | _ => .error ()
  | .Unsigned, j =>
    match j with
    | .num (.pos _) => .ok j
    | .num (.float q) =>
      if 0 ≤ q ∧ q.den = 1 then .ok (.num (.pos (clampU64 q.num))) else .error ()
    | .num (.neg i) => if 0 ≤ i then .ok (.num (.pos i.toNat)) else .error ()
    | .str s =>
      match parseU64 s with
      | some n => .ok (.num (.pos n))
      | none => .error ()
    | _ => .error ()
  | .Float, j =>
    match j with
    | .num (.float _) => .ok j
    | .num (.neg _) => .ok j
    | .num (.pos n) => if n ≤ i64MaxN then .ok j else .ok (.num (.float (n : ℚ)))
    | .str s =>
      match parseF64 s with
      | some (.finite q) => .ok (.num (.float q))
      | some .nonfinite => .ok .null
      | none => .error ()
    | _ => .error ()
  | .String, j =>
    match j with
    | .str _ => .ok j
    | .bool b => .ok (.str (if b then "true" else "false"))
    | .num n => .ok (.str n.text)
    | _ => .error ()
  | _, j => .ok j

/-! ## The current core pipeline (`validator.rs`, `error.rs`, `test.rs`,
`schema.rs`, `number.rs`) -/

namespace Core

/-- `ValidationError` (`error.rs`): a flat record of path, message, kind
tag and nested sub-errors. -/
inductive ValidationError where
  | mk (path : String) (message : String) (type_ : String)
      (errors : List ValidationError)

/-- Field accessor. -/
def ValidationError.path : ValidationError → String
  | .mk p _ _ _ => p

/-- Field accessor. -/
def ValidationError.message : ValidationError → String
  | .mk _ m _ _ => m

/-- Field accessor (`type` in the serialized form). -/
def ValidationError.kind : ValidationError → String
  | .mk _ _ t _ => t

/-- Field accessor. -/
def ValidationError.errors : ValidationError → List ValidationError
  | .mk _ _ _ es => es

/-- `error::type_error` (`error.rs` lines 17–28). -/
def type_error (path label : String) (json_type : JsonType) : ValidationError :=
  .mk path (label ++ " must be of type `" ++ jsonTypeAsStr json_type ++ "`.") "type_error" []

/-- `error::test_error` (`error.rs` lines 30–37). -/
def test_error (type_ : String) (path message : String) : ValidationError :=
  .mk path message type_ []

/-- `error::json_error` (`error.rs` lines 39–49): the single outer
aggregate built by the top-level `validate`. -/
def json_error (all_errors : List ValidationError) : ValidationError :=
  let error_count := all_errors.length
  let pluralized := if error_count = 1 then "error" else "errors"
  .mk "" (toString error_count ++ " validation " ++ pluralized ++ " occurred.")
    "invalid_json" all_errors

/-- `Test<T>` (`test.rs`): a kind tag, a message template with a
`<label>` placeholder, and a predicate that may itself error. -/
structure Test (T : Type) where
  type_ : String
  message : String
  test : T → Except ValidationError Bool

/-- `Test::check` (`test.rs` lines 22–31). -/
def Test.check (t : Test T) (path label : String) (value : T) :
    Except ValidationError Unit :=
  match t.test value with
  | .error e => .error e
  | .ok true => .ok ()
  | .ok false => .error (test_error t.type_ path (t.message.replace "<label>" label))

/-- `Validator<T>` (`validator.rs` lines 8–16). -/
structure Validator (T : Type) where
  jsontype_ : JsonType
  label : Option String
  description : Option String
  is_optional : Bool
  is_nullable : Bool
  tests : List (Test T)
  transforms : List (T → T)

/-- `Validator::new`. -/
def Validator.new (jsontype_ : JsonType) : Validator T :=
  ⟨jsontype_, none, none, false, false, [], []⟩

/-- The serde bound `T: DeserializeOwned + Serialize` of `Validator<T>`:
`fromJson` models `from_json::<T>` (`none` when deserialization errors,
so that the caller's `unwrap` panics), `toJson` models `to_json`. -/
structure JsonCodec (T : Type) where
  fromJson : Json → Option T
  toJson : T → Json

/-- `from_json::<bool>` / `to_json` for `BooleanSchema`. -/
def boolCodec : JsonCodec Bool :=
  ⟨fun j => match j with | .bool b => some b | _ => none, Json.bool⟩

/-- `from_json::<i64>` / `to_json` for `NumberSchema<i64>`: a `PosInt`
beyond the signed range and every non-integer representation fail. -/
def i64Codec : JsonCodec Int :=
  ⟨fun j =>
    match j with
    | .num (.pos n) => if n ≤ i64MaxN then some (n : Int) else none
    | .num (.neg i) => some i
    | _ => none,
   fun i => .num (numOfInt i)⟩

/-- `from_json::<u64>` / `to_json` for `NumberSchema<u64>`. -/
def u64Codec : JsonCodec Nat :=
  ⟨fun j => match j with | .num (.pos n) => some n | _ => none,
   fun n => .num (.pos n)⟩

/-- `from_json::<f64>` / `to_json` for `NumberSchema<f64>`: any number
deserializes (integers through the `as f64` cast, idealized to the exact
rational — no claim depends on integers above 2^53); anything else,
crucially `Json.null`, fails. -/
def f64Codec : JsonCodec ℚ :=
  ⟨fun j =>
    match j with
    | .num (.float q) => some q
    | .num (.pos n) => some (n : ℚ)
    | .num (.neg i) => some (i : ℚ)
    | _ => none,
   fun q => .num (.float q)⟩

/-- `from_json::<String>` / `to_json` for `StringSchema`. -/
def strCodec : JsonCodec String :=
  ⟨fun j => match j with | .str s => some s | _ => none, Json.str⟩

/-- The test stage of `Validator::exec` (`validator.rs` lines 64–68):
check every registered test against the transformed value, collecting
the error of every failing test, in registration order, without
short-circuit. -/
def failingTests (v : Validator T) (path label : String) (t : T) :
    List ValidationError :=
  v.tests.filterMap
    (fun test => match test.check path label t with
      | .error e => some e
      | .ok () => none)

/-- `Validator::exec` (`validator.rs` lines 43–73).  The outer `Option`
models reachability of a panic: `none` is the `from_json(json).unwrap()`
on line 63 panicking.  The inner value is the source's
`ValidationResult<Option<Json>>` (`Err(())` after pushing into the
caller's `all_errors` vector, which is threaded explicitly) paired with
the updated error vector.  The source hands `path` and `label` to
`coerce`, which builds the type error; the harmonized embedding keeps
`coerce` value-only and builds `type_error path label jsontype_` at the
call site (no claim depends on the coercion error's message). -/
def Validator.exec (c : JsonCodec T) (v : Validator T) (path : String)
    (value : Option Json) (all_errors : List ValidationError) :
    Option (Except Unit (Option Json) × List ValidationError) :=
  let label := v.label.getD path
  let go : Json → Option (Except Unit (Option Json) × List ValidationError) :=
    fun json =>
      match v.jsontype_.coerce json with
      | .error () => some (.error (), all_errors ++ [type_error path label v.jsontype_])
      | .ok coerced =>
        match c.fromJson coerced with
        | none => none
        | some t0 =>
          let t := v.transforms.foldl (fun t transform => transform t) t0
          let errors := failingTests v path label t
          if errors.isEmpty then some (.ok (some (c.toJson t)), all_errors)
          else some (.error (), all_errors ++ errors)
  match value with
  | none =>
    if v.is_optional then some (.ok none, all_errors)
    else some (.error (), all_errors ++ [type_error path label v.jsontype_])
  | some .null => if v.is_nullable then some (.ok (some .null), all_errors) else go .null
  | some json => go json

/-- `OkSchema::validate` (`schema.rs` lines 30–36), over any
`validate_at` implementation (the trait method): run at the root path
with a fresh error vector and wrap any failure in `json_error`.  `none`
propagates a panic. -/
def okValidate
    (validate_at : String → Option Json → List ValidationError →
      Option (Except Unit (Option Json) × List ValidationError))
    (value : Option Json) : Option (Except ValidationError (Option Json)) :=
  match validate_at "" value [] with
  | none => none
  | some (.ok v, _) => some (.ok v)
  | some (.error (), errors) => some (.error (json_error errors))

/-- `NumberSchema::validate_at` (`number.rs` lines 98–106) for the three
numeric instantiations, and wiring for the other primitive kinds: the
schema's `validate_at` is exactly its validator's `exec`. -/
def validateAtOf (c : JsonCodec T) (v : Validator T) :
    String → Option Json → List ValidationError →
      Option (Except Unit (Option Json) × List ValidationError) :=
  fun path value all_errors => v.exec c path value all_errors

/-- `float()` (`number.rs` line 112): a fresh `Validator<f64>` targeting
`JsonType::Float`. -/
def floatValidator : Validator ℚ := Validator.new .Float

/-- `integer()` (`number.rs` line 108). -/
def integerValidator : Validator Int := Validator.new .Integer

/-- `integer().validate` — the full current pipeline for the integer
schema with no configured tests. -/
def integerValidate (value : Option Json) :
    Option (Except ValidationError (Option Json)) :=
  okValidate (validateAtOf i64Codec integerValidator) value

/-- `float().validate` — the full current pipeline for the float schema
with no configured tests. -/
def floatValidate (value : Option Json) :
    Option (Except ValidationError (Option Json)) :=
  okValidate (validateAtOf f64Codec floatValidator) value

end Core

/-! ## The container pipeline (`array.rs`, `object.rs`, with the
string/number/boolean schema builders) -/

namespace Tree

/-- The recursive `ValidationError` taxonomy of the specification (§3),
used by the container iteration in the sources: a type error carries the
path and the expected kind (as in the expectations of the tests in
`array.rs`); a value/test error carries a kind tag and message; a field
error collects every failing test of one scalar; object and array errors
are keyed by failing field name / element index. -/
inductive VErr where
  | typeErr (path : String) (expected : JsonType)
  | valueErr (type_ : String) (message : String)
  | fieldErr (errors : List VErr)
  | objectErr (errors : List (String × VErr))
  | arrayErr (errors : List (Nat × VErr))

/-- The `is_optional` / `is_nullable` configuration of a schema's
validator (the `label`/`description` metadata plays no observable role
in this iteration's errors and is omitted). -/
structure Flags where
  optional : Bool
  nullable : Bool

/-- `Flags` of a freshly constructed schema. -/
def Flags.new : Flags := ⟨false, false⟩

/-- A numeric constraint added by `min` / `max` / `greater_than` /
`less_than` (`number.rs` lines 25–71), over the native ordering of the
number type. -/
inductive NumTest (α : Type) where
  | min (bound : α)
  | max (bound : α)
  | gt (bound : α)
  | lt (bound : α)

/-- Evaluate a numeric constraint. -/
def NumTest.holds [LinearOrder α] : NumTest α → α → Bool
  | .min b, x => b ≤ x
  | .max b, x => x ≤ b
  | .gt b, x => b < x
  | .lt b, x => x < b

/-- A string transform added by `trim` / `uppercase` / `lowercase`
(`string.rs` lines 60–76). -/
inductive StrTransform where
  | trim
  | uppercase
  | lowercase

/-- A string constraint: the length bounds measure Rust's `str::len`,
i.e. the UTF-8 byte length; `pattern` abstracts the opaque regex engine
as a pure predicate together with its message. -/
inductive StrTest where
  | length (min max : Nat)
  | minLength (min : Nat)
  | maxLength (max : Nat)
  | pattern (re : String → Bool) (message : String)

/-- Evaluate a string constraint. -/
def StrTest.holds : StrTest → String → Bool
  | .length lo hi, s => lo ≤ s.utf8ByteSize ∧ s.utf8ByteSize ≤ hi
  | .minLength lo, s => lo ≤ s.utf8ByteSize
  | .maxLength hi, s => s.utf8ByteSize ≤ hi
  | .pattern p _, s => p s

/-- An array length constraint added by `length` / `min_length` /
`max_length` (`array.rs` lines 21–43), over the element count. -/
inductive ArrTest where
  | length (min max : Nat)
  | minLength (min : Nat)
  | maxLength (max : Nat)

/-- Evaluate an array length constraint. -/
def ArrTest.holds : ArrTest → List Json → Bool
  | .length lo hi, l => lo ≤ l.length ∧ l.length ≤ hi
  | .minLength lo, l => lo ≤ l.length
  | .maxLength hi, l => l.length ≤ hi

/-- The schema tree every public constructor of the library can build:
`boolean()`, `integer()`, `unsigned()`, `float()`, `string()`,
`array()` (with optional `of` element schema) and `object()` (with its
keyed field schemas, kept in declaration order; the source stores them
in a `HashMap`, whose iteration order is unspecified — no claim below
depends on the order). -/
inductive Schema where
  | boolean (flags : Flags)
  | integer (flags : Flags) (tests : List (NumTest Int))
  | unsigned (flags : Flags) (tests : List (NumTest Nat))
  | float (flags : Flags) (tests : List (NumTest ℚ))
  | string (flags : Flags) (transforms : List StrTransform)
      (tests : List StrTest)
  | array (flags : Flags) (tests : List ArrTest) (elem : Option Schema)
  | obj (flags : Flags) (fields : List (String × Schema))

/-- The flags of a schema's validator. -/
def Schema.flagsOf : Schema → Flags
  | .boolean fl => fl
  | .integer fl _ => fl
  | .unsigned fl _ => fl
  | .float fl _ => fl
  | .string fl _ _ => fl
  | .array fl _ _ => fl
  | .obj fl _ => fl

/-- The scalar values with the Unicode `White_Space` property. -/
def isWhitespaceCode (m : Nat) : Bool :=
  [9, 10, 11, 12, 13, 32, 133, 160, 5760, 8192, 8193, 8194, 8195, 8196,
    8197, 8198, 8199, 8200, 8201, 8202, 8232, 8233, 8239, 8287,
    12288].contains m

/-- Rust `char::is_whitespace` (the Unicode `White_Space` property). -/
def isWhitespaceChar (c : Char) : Bool :=
  isWhitespaceCode c.toNat

/-- Rust `str::trim`: drop leading and trailing whitespace. -/
def trimString (s : String) : String :=
  ⟨List.rdropWhile isWhitespaceChar (s.data.dropWhile isWhitespaceChar)⟩

/-- Per-character uppercasing (`str::to_uppercase`, modelled on the
ASCII range; the full Unicode case map never turns a cased character
into whitespace or conversely, which is all the proofs use). -/
def upperChar (c : Char) : Char :=
  if 97 ≤ c.toNat ∧ c.toNat ≤ 122 then Char.ofNat (c.toNat - 32) else c

/-- Per-character lowercasing (`str::to_lowercase`, ASCII range). -/
def lowerChar (c : Char) : Char :=
  if 65 ≤ c.toNat ∧ c.toNat ≤ 90 then Char.ofNat (c.toNat + 32) else c

/-- Rust `str::to_uppercase`, per character. -/
def upperString (s : String) : String :=
  ⟨s.data.map upperChar⟩

/-- Rust `str::to_lowercase`, per character. -/
def lowerString (s : String) : String :=
  ⟨s.data.map lowerChar⟩

/-- Apply one string transform. -/
def StrTransform.apply : StrTransform → String → String
  | .trim, s => trimString s
  | .uppercase, s => upperString s
  | .lowercase, s => lowerString s

/-- Apply the registered transforms in registration order (§4.2 step 7). -/
def applyTransforms (ts : List StrTransform) (s : String) : String :=
  ts.foldl (fun s t => t.apply s) s

end Tree

namespace Tree

/-- Evaluate one numeric constraint into a failing error, if any, with
the kind tags of `number.rs` (`min`, `max`, `greater_than`,
`less_than`). -/
def numCheck [LinearOrder α] [ToString α] (t : NumTest α) (x : α) : Option VErr :=
  if t.holds x then none
  else
    match t with
    | .min b => some (.valueErr "min" ("must be at least " ++ toString b ++ "."))
    | .max b => some (.valueErr "max" ("must be at most " ++ toString b ++ "."))
    | .gt b => some (.valueErr "greater_than" ("must be greater than " ++ toString b ++ "."))
    | .lt b => some (.valueErr "less_than" ("must be less than " ++ toString b ++ "."))

/-- Evaluate one string constraint into a failing error, if any, with
the messages of `string.rs`. -/
def strCheck (t : StrTest) (s : String) : Option VErr :=
  if t.holds s then none
  else
    match t with
    | .length lo hi => some (.valueErr "length"
        ("Expected String with length between " ++ toString lo ++ " and " ++ toString hi ++ "."))
    | .minLength lo => some (.valueErr "min_length"
        ("Expected String with length of at least " ++ toString lo ++ "."))
    | .maxLength hi => some (.valueErr "max_length"
        ("Expected String with length of at most " ++ toString hi ++ "."))
    | .pattern _ msg => some (.valueErr "pattern" msg)

/-- Evaluate one array length constraint into a failing error, if any,
with the messages of `array.rs`. -/
def arrCheck (t : ArrTest) (l : List Json) : Option VErr :=
  if t.holds l then none
  else
    match t with
    | .length lo hi => some (.valueErr "length"
        ("Expected Array with length between " ++ toString lo ++ " and " ++ toString hi ++ "."))
    | .minLength lo => some (.valueErr "min_length"
        ("Expected Array with length of at least " ++ toString lo ++ "."))
    | .maxLength hi => some (.valueErr "max_length"
        ("Expected Array with length of at most " ++ toString hi ++ "."))

/-- `from_json::<Array>` (`Array` is `Vec<Json>`). -/
def asArray : Json → Option (List Json)
  | .arr l => some l
  | _ => none

/-- `from_json::<Object>` (`Object` is `Map<String, Json>`). -/
def asObject : Json → Option (List (String × Json))
  | .obj l => some l
  | _ => none

/-- Modelled from the spec: the Result-style `Validator::exec` that the
container iteration of the sources calls (`array.rs` line 73,
`object.rs` line 122, `string.rs` line 123, `boolean.rs` line 41) is
not itself among the sources; this follows §4.2 steps 1–10 of the
specification, with step 6 (deserialize the coerced value into the
native type) refined per the expectations of the tests in `array.rs`
and `object.rs`: a coerced value that does not deserialize reports a
type error at the schema's path (this is how a non-array input to an
array schema fails, the `Array` arm of `JsonType::coerce` being a
verbatim pass-through).  Failing tests are collected without
short-circuit into a `fieldErr` (§4.2 step 10).  `execCoerce` is the
coerce/deserialize/transform/test stage (§4.2 steps 5–10); `execB`
places the absence/nullability steps (§4.2 steps 1–4) around it. -/
def execCoerce (target : JsonType) (fj : Json → Option T) (tj : T → Json)
    (transforms : List (T → T)) (checks : List (T → Option VErr))
    (path : String) (json : Json) : Except VErr (Option Json) :=
  match target.coerce json with
  | .error () => .error (.typeErr path target)
  | .ok coerced =>
    match fj coerced with
    | none => .error (.typeErr path target)
    | some t0 =>
      let t := transforms.foldl (fun t transform => transform t) t0
      match checks.filterMap (fun check => check t) with
      | [] => .ok (some (tj t))
      | errors => .error (.fieldErr errors)

/-- Steps 1–4 of §4.2 (absence and nullability) around `execCoerce`. -/
def execB (target : JsonType) (fj : Json → Option T) (tj : T → Json)
    (transforms : List (T → T)) (checks : List (T → Option VErr))
    (fl : Flags) (path : String) (value : Option Json) :
    Except VErr (Option Json) :=
  match value with
  | none => if fl.optional then .ok none else .error (.typeErr path target)
  | some .null =>
    if fl.nullable then .ok (some .null)
    else execCoerce target fj tj transforms checks path .null
  | some json => execCoerce target fj tj transforms checks path json

/-- The element path `format!("{}[{}]", path, index)` of `array.rs`
line 86. -/
def childPath (path : String) (index : Nat) : String :=
  path ++ "[" ++ toString index ++ "]"

/-- `Map::remove` (`object.rs` line 136): take the first entry with the
given key out of the object, returning its value (if any) and the
remaining entries. -/
def objRemove (key : String) : List (String × Json) → Option Json × List (String × Json)
  | [] => (none, [])
  | (k, v) :: rest =>
    if k = key then (some v, rest)
    else
      let r := objRemove key rest
      (r.1, (k, v) :: r.2)

mutual

/-- The `validate_at` of the container iteration, per schema kind.  For
the primitive kinds this is the validator's exec with the appropriate
serde instances (`boolean.rs`, `number.rs`, `string.rs`); the `array`
case is `ArraySchema::validate_at` (`array.rs` lines 72–102) and the
`obj` case is `ObjectSchema::validate` (`object.rs` lines 121–152),
statement for statement.  The outer `Option` marks a reachable panic
(`none`): the `from_json::<Array>(json).unwrap()` of `array.rs` line 77
and the `value.unwrap()` of `array.rs` line 90. -/
def validate : Schema → String → Option Json → Option (Except VErr (Option Json))
  | .boolean fl, path, value =>
    some (execB .Boolean Core.boolCodec.fromJson Core.boolCodec.toJson [] [] fl path value)
  | .integer fl tests, path, value =>
    some (execB .Integer Core.i64Codec.fromJson Core.i64Codec.toJson []
      (tests.map (fun t x => numCheck t x)) fl path value)
  | .unsigned fl tests, path, value =>
    some (execB .Unsigned Core.u64Codec.fromJson Core.u64Codec.toJson []
      (tests.map (fun t x => numCheck t x)) fl path value)
  | .float fl tests, path, value =>
    some (execB .Float Core.f64Codec.fromJson Core.f64Codec.toJson []
      (tests.map (fun t x => numCheck t x)) fl path value)
  | .string fl transforms tests, path, value =>
    some (execB .String Core.strCodec.fromJson Core.strCodec.toJson
      (transforms.map StrTransform.apply)
      (tests.map (fun t s => strCheck t s)) fl path value)
  | .array fl tests elem, path, value =>
    match execB .Array asArray Json.arr [] (tests.map (fun t l => arrCheck t l))
        fl path value with
    | .error e => some (.error e)
    | .ok validated =>
      match validated, elem with
      | none, _ => some (.ok none)
      | some j, none => some (.ok (some j))
      | some j, some element_schema =>
        match asArray j with
        | none => none
        | some elements => validateElems element_schema path elements 0 [] []
  | .obj fl fields, path, value =>
    match execB .Object asObject Json.obj [] [] fl path value with
    | .error e => some (.error e)
    | .ok validated =>
      if fields.isEmpty then some (.ok validated)
      else
        match validated with
        | none => some (.ok none)
        | some (.obj flds) => validateFields fields flds [] []
        | some j => some (.ok (some j))
termination_by s _ _ => (sizeOf s, 0)

/-- The element loop of `ArraySchema::validate_at` (`array.rs` lines
82–101): validate every element at its indexed path; a success is
pushed onto the output only while no error has occurred; a failure is
keyed by its index; a panic (`none`) anywhere propagates. -/
def validateElems (element_schema : Schema) (path : String) :
    List Json → Nat → List Json → List (Nat × VErr) →
      Option (Except VErr (Option Json))
  | [], _, output, errors =>
    some (if errors.isEmpty then .ok (some (.arr output)) else .error (.arrayErr errors))
  | element :: rest, index, output, errors =>
    match validate element_schema (childPath path index) (some element) with
    | none => none
    | some (.ok none) => none
    | some (.ok (some value)) =>
      validateElems element_schema path rest (index + 1)
        (if errors.isEmpty then output ++ [value] else output) errors
    | some (.error e) =>
      validateElems element_schema path rest (index + 1) output (errors ++ [(index, e)])
termination_by l _ _ _ => (sizeOf element_schema, l.length + 1)

/-- The field loop of `ObjectSchema::validate` (`object.rs` lines
133–151): remove each configured key from the input, validate it with
the field's schema (at the root path, as `schema.validate(...)` does),
insert a produced value only while no error has occurred, key a failure
by the field name, and contribute nothing for an optional absent
field. -/
def validateFields :
    List (String × Schema) → List (String × Json) →
      List (String × Json) → List (String × VErr) →
      Option (Except VErr (Option Json))
  | [], _, output, errors =>
    some (if errors.isEmpty then .ok (some (.obj output)) else .error (.objectErr errors))
  | (key, field_schema) :: rest, flds, output, errors =>
    let removed := objRemove key flds
    match validate field_schema "" removed.1 with
    | none => none
    | some (.ok none) => validateFields rest removed.2 output errors
    | some (.ok (some value)) =>
      validateFields rest removed.2
        (if errors.isEmpty then output ++ [(key, value)] else output) errors
    | some (.error e) => validateFields rest removed.2 output (errors ++ [(key, e)])
termination_by fields _ _ _ => (sizeOf fields, 0)

end

end Tree

/-! ## Claims C1 and C2: reachable panics in the pipeline -/

/-- C1.  The claim states that no input ever causes an uncaught panic
anywhere in the coerce/deserialize/test pipeline, in particular that the
`from_json(...).unwrap()` in `Validator::exec` is unreachable.  It is
refuted by the float schema on the string input `"NaN"`:
`"NaN".parse::<f64>()` succeeds with a non-finite value, `to_json`
serializes it as `Json::Null`, so coercion succeeds with `null` — and
`from_json::<f64>(Null).unwrap()` on line 63 of `validator.rs` panics.
The theorem evaluates the model of `float().validate(json!("NaN"))` to
the panic marker `none`. -/
theorem c1_float_schema_panics_on_nan_string :
    Core.floatValidate (some (Json.str "NaN")) = none := rfl

/-- C2.  The claim states that for every nullable schema, validating
explicit null returns null verbatim, bypassing coercion and every test.
It is refuted by a nullable array schema with a configured element
schema: `Validator::exec` does return `Some(Json::Null)` verbatim, but
`ArraySchema::validate_at` (`array.rs` line 77) then runs
`from_json::<Array>(json).unwrap()` on it, which panics — the guard that
`ObjectSchema::validate` has for a non-object pass-through value is
missing in `array.rs`.  The theorem evaluates the model of
`array().of(boolean()).nullable().validate(json!(null))` to the panic
marker `none`. -/
theorem c2_nullable_array_schema_panics_on_null :
    Tree.validate (.array ⟨false, true⟩ [] (some (.boolean Tree.Flags.new))) ""
      (some .null) = none := by
  simp [Tree.validate, Tree.execB, Tree.execCoerce, Tree.asArray]

/-! ## Claim C4: container coercion -/

/-- C4, counterexample.  The claim states that coercion to the `Array`
target succeeds exactly when the input is already an array.  In
`json.rs`, however, `Array` is handled by the catch-all arm
(line 127), which returns the input verbatim: coercing a boolean to the
`Array` target succeeds. -/
theorem c4_counterexample_array_coerce_passthrough :
    JsonType.Array.coerce (Json.bool true) = .ok (Json.bool true) := rfl

/-- C4, amended.  Coercion to the `Object` target succeeds exactly on
objects and yields a type error otherwise; coercion to the `Array`
target returns the input verbatim for every input — the array kind is
instead enforced by the validator's deserialization step, so a
non-array input to an array schema still fails with a type error. -/
theorem c4_container_kind_enforcement :
    (∀ fields, JsonType.Object.coerce (.obj fields) = .ok (.obj fields))
    ∧ (∀ j : Json, (∀ fields, j ≠ .obj fields) → JsonType.Object.coerce j = .error ())
    ∧ (∀ j : Json, JsonType.Array.coerce j = .ok j)
    ∧ (∀ l, Tree.validate (.array Tree.Flags.new [] none) "" (some (.arr l)) =
        some (.ok (some (.arr l))))
    ∧ (∀ j : Json, (∀ l, j ≠ .arr l) →
        Tree.validate (.array Tree.Flags.new [] none) "" (some j) =
          some (.error (.typeErr "" .Array))) := by
  refine ⟨fun fields => rfl, fun j h => ?_, fun j => ?_, fun l => ?_, fun j h => ?_⟩
  · cases j with
    | obj fields => exact absurd rfl (h fields)
    | _ => rfl
  · cases j <;> rfl
  · simp [Tree.validate, Tree.execB, Tree.execCoerce, Tree.asArray, JsonType.coerce, Tree.Flags.new]
  · cases j with
    | arr l => exact absurd rfl (h l)
    | _ => simp [Tree.validate, Tree.execB, Tree.execCoerce, Tree.asArray, JsonType.coerce, Tree.Flags.new]

/-- C4, witness for the amended theorem: a boolean is rejected by the
`Object` coercion, and a number input to a plain array schema fails with
a type error at the root path. -/
theorem c4_witness :
    JsonType.Object.coerce (Json.bool true) = .error ()
    ∧ Tree.validate (.array Tree.Flags.new [] none) "" (some (Json.num (.pos 1))) =
        some (.error (.typeErr "" .Array)) :=
  ⟨c4_container_kind_enforcement.2.1 (Json.bool true) (fun _ h => Json.noConfusion h),
   c4_container_kind_enforcement.2.2.2.2 (Json.num (.pos 1)) (fun _ h => Json.noConfusion h)⟩

/-! ## Claim C7: integer-target coercion -/

/-- The double `2^63` (exactly representable), just above `i64::MAX`. -/
def floatTwoPow63 : ℚ := Rat.mk' (2 ^ 63) 1 (by decide) (Nat.coprime_one_right _)

/-- The double nearest `1.1`, idealized to the exact decimal `11/10`
(both have a nonzero fractional part, which is all that matters). -/
def floatElevenTenths : ℚ := Rat.mk' 11 10 (by decide) (by norm_num)

/-- C7, counterexample.  The claim states that every accepted numeric
input equals the resulting integer exactly — floats are "rejected, never
silently truncated".  But an integral float above the signed range is
accepted and silently saturated by the `float as i64` cast (`json.rs`
line 51): coercing the float `2^63` to the `Integer` target succeeds
with `i64::MAX = 2^63 - 1`, a different number. -/
theorem c7_counterexample_integral_float_saturation :
    JsonType.Integer.coerce (.num (.float floatTwoPow63)) =
      .ok (.num (.pos 9223372036854775807))
    ∧ floatTwoPow63.num ≠ (9223372036854775807 : Int) :=
  ⟨rfl, by decide⟩

/-- C7, amended.  Integer-target coercion accepts a signed integer
as-is, a float with zero fractional part (with the value saturated to
the signed 64-bit range by the Rust `as` cast when it lies outside it),
an unsigned value that fits in the signed range, and a string parsing as
a base-10 signed integer, and rejects every other input with a type
error; floats with a nonzero fraction and unsigned values exceeding the
signed maximum are rejected.  Every accepted numeric input whose value
lies within the signed 64-bit range equals the resulting integer
exactly; in particular `validate(1)`, `validate(1.0)` and
`validate("1")` each return the integer `1`, while `validate(1.1)` and
`validate("abc")` fail. -/
theorem c7_integer_coercion_characterization :
    (∀ i : Int, JsonType.Integer.coerce (.num (.neg i)) = .ok (.num (.neg i)))
    ∧ (∀ n : Nat, n ≤ i64MaxN → JsonType.Integer.coerce (.num (.pos n)) = .ok (.num (.pos n)))
    ∧ (∀ n : Nat, i64MaxN < n → JsonType.Integer.coerce (.num (.pos n)) = .error ())
    ∧ (∀ q : ℚ, q.den ≠ 1 → JsonType.Integer.coerce (.num (.float q)) = .error ())
    ∧ (∀ q : ℚ, q.den = 1 →
        JsonType.Integer.coerce (.num (.float q)) = .ok (.num (numOfInt (clampI64 q.num))))
    ∧ (∀ q : ℚ, q.den = 1 → i64Min ≤ q.num → q.num ≤ i64Max →
        JsonType.Integer.coerce (.num (.float q)) = .ok (.num (numOfInt q.num)))
    ∧ (∀ s i, parseI64 s = some i →
        JsonType.Integer.coerce (.str s) = .ok (.num (numOfInt i)))
    ∧ (∀ s, parseI64 s = none → JsonType.Integer.coerce (.str s) = .error ())
    ∧ JsonType.Integer.coerce .null = .error ()
    ∧ (∀ b, JsonType.Integer.coerce (.bool b) = .error ())
    ∧ (∀ l, JsonType.Integer.coerce (.arr l) = .error ())
    ∧ (∀ f, JsonType.Integer.coerce (.obj f) = .error ())
    ∧ Core.integerValidate (some (.num (.pos 1))) = some (.ok (some (.num (.pos 1))))
    ∧ Core.integerValidate (some (.num (.float 1))) = some (.ok (some (.num (.pos 1))))
    ∧ Core.integerValidate (some (.str "1")) = some (.ok (some (.num (.pos 1))))
    ∧ (∃ e, Core.integerValidate (some (.num (.float floatElevenTenths))) = some (.error e))
    ∧ (∃ e, Core.integerValidate (some (.str "abc")) = some (.error e)) := by
  refine ⟨fun i => rfl, fun n h => ?_, fun n h => ?_, fun q h => ?_, fun q h => ?_,
    fun q h1 h2 h3 => ?_, fun s i h => ?_, fun s h => ?_, rfl, fun b => rfl,
    fun l => rfl, fun f => rfl, rfl, rfl, rfl, ⟨_, rfl⟩, ⟨_, rfl⟩⟩
  · simp [JsonType.coerce, h]
  · simp [JsonType.coerce]
    omega
  · simp [JsonType.coerce, h]
  · simp [JsonType.coerce, h]
  · have hc : clampI64 q.num = q.num := by
      simp only [clampI64]
      omega
    simp [JsonType.coerce, h1, hc]
  · simp [JsonType.coerce, h]
  · simp [JsonType.coerce, h]

/-- C7, witness for the amended theorem: the in-range exactness clause
at the integral float `1.0` and the string-parse clause at `"1"`. -/
theorem c7_witness :
    JsonType.Integer.coerce (.num (.float 1)) = .ok (.num (numOfInt (1 : ℚ).num))
    ∧ JsonType.Integer.coerce (.str "1") = .ok (.num (numOfInt 1)) :=
  ⟨c7_integer_coercion_characterization.2.2.2.2.2.1 1 rfl (by norm_num [i64Min]) (by norm_num [i64Max]),
   c7_integer_coercion_characterization.2.2.2.2.2.2.1 "1" 1 rfl⟩

/-! ## Claim C10: the top-level failure wrapper -/

/-- C10.  For any `validate_at` implementation and any input, when the
top-level `OkSchema::validate` fails it returns exactly the single outer
aggregate `json_error` over the collected error vector: empty path, kind
`invalid_json`, owning all collected inner errors, with the message
`"<n> validation error occurred."` when `n = 1` and
`"<n> validation errors occurred."` otherwise. -/
theorem c10_validate_failure_wrapper
    (va : String → Option Json → List Core.ValidationError →
      Option (Except Unit (Option Json) × List Core.ValidationError))
    (value : Option Json) (e : Core.ValidationError)
    (h : Core.okValidate va value = some (.error e)) :
    ∃ errs, va "" value [] = some (.error (), errs) ∧ e = Core.json_error errs
      ∧ e.path = "" ∧ e.kind = "invalid_json" ∧ e.errors = errs
      ∧ e.message = toString errs.length ++ " validation " ++
          (if errs.length = 1 then "error" else "errors") ++ " occurred." := by
  unfold Core.okValidate at h
  rcases hv : va "" value [] with _ | ⟨r, errs⟩
  · rw [hv] at h
    cases h
  · rcases r with u | v
    · cases u
      rw [hv] at h
      simp only [Option.some.injEq, Except.error.injEq] at h
      subst h
      exact ⟨errs, rfl, rfl, rfl, rfl, rfl, rfl⟩
    · rw [hv] at h
      cases h

/-- C10, witness: the integer schema on the unparseable string `"abc"`
collects exactly one type error, and the wrapper around it carries the
empty path, the `invalid_json` kind and the singular message. -/
theorem c10_witness :
    Core.validateAtOf Core.i64Codec Core.integerValidator "" (some (.str "abc")) [] =
      some (.error (), [Core.type_error "" "" .Integer])
    ∧ (Core.json_error [Core.type_error "" "" .Integer]).path = ""
    ∧ (Core.json_error [Core.type_error "" "" .Integer]).kind = "invalid_json"
    ∧ (Core.json_error [Core.type_error "" "" .Integer]).message =
        "1 validation error occurred." := by
  obtain ⟨errs, h1, h2, h3, h4, h5, h6⟩ :=
    c10_validate_failure_wrapper
      (Core.validateAtOf Core.i64Codec Core.integerValidator)
      (some (.str "abc")) (Core.json_error [Core.type_error "" "" .Integer]) rfl
  have h0 : (some ((Except.error () : Except Unit (Option Json)), errs)) =
      some ((Except.error () : Except Unit (Option Json)), [Core.type_error "" "" .Integer]) :=
    h1.symm.trans rfl
  simp only [Option.some.injEq, Prod.mk.injEq, true_and] at h0
  subst h0
  exact ⟨h1, h3, h4, h6.trans rfl⟩

/-! ## Claim C3: pipeline stage order -/

/-- C3, counterexample.  The claim states that whenever coercion
succeeds, the transforms are applied and then every registered test is
evaluated, with the failing tests collected into the result.  It fails
on a float-target validator with the string input `"NaN"`: coercion
succeeds (returning `Json::Null`, since `serde_json` serializes a
non-finite double as null), yet the registered test is never evaluated —
the run panics at the `from_json(...).unwrap()` and produces no result
at all. -/
theorem c3_counterexample_nonfinite_float_string :
    JsonType.Float.coerce (Json.str "NaN") = .ok .null
    ∧ Core.Validator.exec Core.f64Codec
        ⟨.Float, none, none, false, false,
          [⟨"min", "<label> must be at least 0.", fun q => .ok (decide (0 ≤ q))⟩], []⟩
        "" (some (.str "NaN")) [] = none :=
  ⟨rfl, rfl⟩

/-- C3, amended.  For every validator run on present non-null input: if
coercion fails, exactly one type error is appended and the outcome does
not depend on the registered tests or transforms at all (no test is
evaluated); if coercion succeeds *and the coerced value deserializes
into the native type* (which can fail only for a float-target string
input parsing to a non-finite value, where the run panics), the
transforms are applied in registration order and the error of every
failing test — evaluated on the transformed value, in registration
order, without short-circuit — is appended, the run succeeding exactly
when no test failed. -/
theorem c3_exec_stage_order {T : Type} (c : Core.JsonCodec T) (v : Core.Validator T)
    (path : String) (j : Json) (acc : List Core.ValidationError) (hnn : j ≠ .null) :
    (v.jsontype_.coerce j = .error () →
      ∀ (tests : List (Core.Test T)) (transforms : List (T → T)),
        Core.Validator.exec c
          ⟨v.jsontype_, v.label, v.description, v.is_optional, v.is_nullable,
            tests, transforms⟩ path (some j) acc =
          some (.error (), acc ++ [Core.type_error path (v.label.getD path) v.jsontype_]))
    ∧ (∀ coerced t0, v.jsontype_.coerce j = .ok coerced → c.fromJson coerced = some t0 →
        Core.Validator.exec c v path (some j) acc =
          some (
            (fun t =>
              if (Core.failingTests v path (v.label.getD path) t).isEmpty then
                ((.ok (some (c.toJson t)) : Except Unit (Option Json)), acc)
              else (.error (), acc ++ Core.failingTests v path (v.label.getD path) t))
            (v.transforms.foldl (fun t transform => transform t) t0))) := by
  constructor
  · intro hco tests transforms
    cases j <;> first
      | exact absurd rfl hnn
      | simp [Core.Validator.exec, hco]
  · intro coerced t0 hco hfj
    cases j <;> first
      | exact absurd rfl hnn
      | (simp [Core.Validator.exec, hco, hfj]; split <;> rfl)

/-- The validator of `integer().label("x").min(5).max(10)` under the
current pipeline. -/
def c3ExampleValidator : Core.Validator Int :=
  ⟨.Integer, some "x", none, false, false,
    [⟨"min", "<label> must be at least 5.", fun n => .ok (decide (5 ≤ n))⟩,
     ⟨"max", "<label> must be at most 10.", fun n => .ok (decide (n ≤ 10))⟩], []⟩

/-- C3, witness for the amended theorem: `integer().min(5).max(10)` on
input `12` — coercion succeeds, both tests are evaluated and exactly the
failing `max` test's error is collected. -/
theorem c3_witness :
    Core.Validator.exec Core.i64Codec c3ExampleValidator "" (some (.num (.pos 12))) [] =
      some (.error (),
        [Core.test_error "max" "" ("<label> must be at most 10.".replace "<label>" "x")]) := by
  have h := (c3_exec_stage_order Core.i64Codec c3ExampleValidator "" (.num (.pos 12)) []
      (by intro h; cases h)).2 (.num (.pos 12)) 12 rfl rfl
  exact h.trans rfl

/-! ## Claims C5, C6, C8: container aggregation -/

namespace Tree

/-- Index the elements of a list starting at `start`
(`.into_iter().enumerate()` of `array.rs` line 84, with an explicit
start for the loop invariant). -/
def enumFrom (start : Nat) : List α → List (Nat × α)
  | [] => []
  | a :: l => (start, a) :: enumFrom (start + 1) l

theorem enumFrom_mem {α : Type} {start k : Nat} {a : α} {l : List α} :
    (k, a) ∈ enumFrom start l ↔ ∃ i, k = start + i ∧ l[i]? = some a := by
  induction l generalizing start with
  | nil => simp [enumFrom]
  | cons b t ih =>
    simp only [enumFrom, List.mem_cons]
    constructor
    · rintro (h | h)
      · obtain ⟨hk, ha⟩ := Prod.mk.injEq .. ▸ h
        exact ⟨0, by omega, by simp [ha]⟩
      · obtain ⟨i, hk, hi⟩ := ih.mp h
        exact ⟨i + 1, by omega, by simpa using hi⟩
    · rintro ⟨i, hk, hi⟩
      cases i with
      | zero =>
        left
        simp only [List.getElem?_cons_zero, Option.some.injEq] at hi
        simp [hk, hi]
      | succ j =>
        right
        exact ih.mpr ⟨j, by omega, by simpa using hi⟩

/-- The failing element runs, keyed by index (`errors.insert(index, error)`
of `array.rs` line 94). -/
def elemFailures (es : Schema) (path : String) (l : List (Nat × Json)) :
    List (Nat × VErr) :=
  l.filterMap (fun p =>
    match validate es (childPath path p.1) (some p.2) with
    | some (.error e) => some (p.1, e)
    | _ => none)

/-- The successful element outputs in index order (`array.push` of
`array.rs` line 90). -/
def elemOutputs (es : Schema) (path : String) (l : List (Nat × Json)) :
    List Json :=
  l.filterMap (fun p =>
    match validate es (childPath path p.1) (some p.2) with
    | some (.ok (some v)) => some v
    | _ => none)

/-- Characterization of the element loop of `ArraySchema::validate_at`:
provided no element run panics or produces an empty success, the loop's
outcome is assembled pointwise from the independent element runs — the
failures keyed by index, the outputs in index order, all-or-nothing. -/
theorem validateElems_spec (es : Schema) (path : String) :
    ∀ (elems : List Json) (start : Nat) (outAcc : List Json)
      (errAcc : List (Nat × VErr)),
      (∀ p ∈ enumFrom start elems,
        ∃ r, validate es (childPath path p.1) (some p.2) = some r ∧ r ≠ .ok none) →
      validateElems es path elems start outAcc errAcc =
        some (
          if (errAcc ++ elemFailures es path (enumFrom start elems)).isEmpty then
            .ok (some (.arr (outAcc ++ elemOutputs es path (enumFrom start elems))))
          else .error (.arrayErr (errAcc ++ elemFailures es path (enumFrom start elems))))
  | [], start, outAcc, errAcc, _ => by
    simp only [validateElems, enumFrom, elemFailures, elemOutputs, List.filterMap_nil,
      List.append_nil]
  | el :: rest, start, outAcc, errAcc, h => by
    obtain ⟨r, hr0, hrn⟩ := h (start, el) (by simp [enumFrom])
    have hr : validate es (childPath path start) (some el) = some r := hr0
    have htail := validateElems_spec es path rest (start + 1)
    rcases r with e | v
    · simp only [validateElems, hr]
      rw [htail outAcc (errAcc ++ [(start, e)])
        (fun p hp => h p (by simp [enumFrom, hp]))]
      simp only [enumFrom, elemFailures, elemOutputs, List.filterMap_cons, hr]
      simp [List.append_assoc]
    · rcases v with _ | v
      · exact absurd rfl hrn
      · simp only [validateElems, hr]
        rw [htail (if errAcc.isEmpty then outAcc ++ [v] else outAcc) errAcc
          (fun p hp => h p (by simp [enumFrom, hp]))]
        simp only [enumFrom, elemFailures, elemOutputs, List.filterMap_cons, hr]
        by_cases he : errAcc.isEmpty <;>
          by_cases hf : (elemFailures es path (enumFrom (start + 1) rest)).isEmpty <;>
          simp_all [List.append_assoc, List.isEmpty_iff]

end Tree

/-- C5.  For every array schema `array().of(es)` (no container length
tests) and every input array whose element runs neither panic nor return
an empty success: every element is validated at its own indexed path,
independently of the other elements; if any element fails, the whole
validation fails with an aggregate keyed exactly by the failing indices
(a passing index is absent from the aggregate); if no element fails, the
output is the array of validated elements in the original index order —
the array never partially succeeds. -/
theorem c5_array_element_aggregation (fl : Tree.Flags) (es : Tree.Schema)
    (path : String) (elems : List Json)
    (hrun : ∀ p ∈ Tree.enumFrom 0 elems,
      ∃ r, Tree.validate es (Tree.childPath path p.1) (some p.2) = some r ∧ r ≠ .ok none) :
    Tree.validate (.array fl [] (some es)) path (some (.arr elems)) =
      some (
        if (Tree.elemFailures es path (Tree.enumFrom 0 elems)).isEmpty then
          .ok (some (.arr (Tree.elemOutputs es path (Tree.enumFrom 0 elems))))
        else .error (.arrayErr (Tree.elemFailures es path (Tree.enumFrom 0 elems))))
    ∧ (∀ i e, (i, e) ∈ Tree.elemFailures es path (Tree.enumFrom 0 elems) ↔
        ∃ el, elems[i]? = some el ∧
          Tree.validate es (Tree.childPath path i) (some el) = some (.error e)) := by
  constructor
  · have hexec : Tree.execB .Array Tree.asArray Json.arr []
        (List.map (fun t l => Tree.arrCheck t l) []) fl path (some (.arr elems)) =
        .ok (some (.arr elems)) := rfl
    simp only [Tree.validate, hexec, Tree.asArray]
    rw [Tree.validateElems_spec es path elems 0 [] [] hrun]
    simp
  · intro i e
    constructor
    · intro hmem
      obtain ⟨p, hp, hmatch⟩ := List.mem_filterMap.mp hmem
      rcases hres : Tree.validate es (Tree.childPath path p.1) (some p.2) with _ | r
      · rw [hres] at hmatch
        cases hmatch
      · rw [hres] at hmatch
        rcases r with e' | v
        · simp only [Option.some.injEq, Prod.mk.injEq] at hmatch
          obtain ⟨h1, h2⟩ := hmatch
          subst h1
          subst h2
          obtain ⟨j, hj, hget⟩ := Tree.enumFrom_mem.mp (by exact hp)
          refine ⟨p.2, ?_, hres⟩
          have hpj : p.1 = j := by omega
          rw [hpj]
          exact hget
        · cases hmatch
    · rintro ⟨el, hget, hval⟩
      refine List.mem_filterMap.mpr ⟨(i, el), ?_, ?_⟩
      · exact Tree.enumFrom_mem.mpr ⟨i, by omega, hget⟩
      · simp [hval]

/-- C5, witness: `array().of(integer())` on `["foo", 2, "bar"]` fails
with an aggregate keyed at indices 0 and 2 only. -/
theorem c5_witness :
    Tree.validate (.array Tree.Flags.new [] (some (.integer Tree.Flags.new []))) ""
      (some (.arr [.str "foo", .num (.pos 2), .str "bar"])) =
      some (.error (.arrayErr
        [(0, .typeErr "[0]" .Integer), (2, .typeErr "[2]" .Integer)])) := by
  have h := (c5_array_element_aggregation Tree.Flags.new (.integer Tree.Flags.new []) ""
      [.str "foo", .num (.pos 2), .str "bar"] ?_).1
  · rw [h]
    simp only [Tree.elemFailures, Tree.elemOutputs, Tree.enumFrom, Tree.childPath,
      List.filterMap_cons, Tree.validate]
    rfl
  · intro p hp
    simp only [Tree.enumFrom, List.mem_cons, List.not_mem_nil, or_false] at hp
    rcases hp with rfl | rfl | rfl
    · exact ⟨.error (.typeErr "[0]" .Integer), by simp only [Tree.validate]; rfl,
        fun h => Except.noConfusion h⟩
    · exact ⟨.ok (some (.num (.pos 2))), by simp only [Tree.validate]; rfl, by simp⟩
    · exact ⟨.error (.typeErr "[2]" .Integer), by simp only [Tree.validate]; rfl,
        fun h => Except.noConfusion h⟩

namespace Tree

theorem objRemove_fst (key : String) (l : List (String × Json)) :
    (objRemove key l).1 = List.lookup key l := by
  induction l with
  | nil => rfl
  | cons p rest ih =>
    obtain ⟨k, v⟩ := p
    by_cases h : k = key
    · subst h
      simp [objRemove, List.lookup]
    · have hne : ¬ key = k := fun hk => h hk.symm
      have hb : (key == k) = false := beq_eq_false_iff_ne.mpr hne
      simp [objRemove, List.lookup, h, hb, ih]

theorem objRemove_snd_lookup {key other : String} (hne : other ≠ key)
    (l : List (String × Json)) :
    List.lookup other (objRemove key l).2 = List.lookup other l := by
  induction l with
  | nil => rfl
  | cons p rest ih =>
    obtain ⟨k, v⟩ := p
    by_cases h : k = key
    · subst h
      have hb : (other == k) = false := beq_eq_false_iff_ne.mpr hne
      simp [objRemove, List.lookup, hb]
    · by_cases h2 : other = k
      · subst h2
        simp [objRemove, h, List.lookup]
      · have hb : (other == k) = false := beq_eq_false_iff_ne.mpr h2
        simp [objRemove, h, List.lookup, hb, ih]

/-- The failing field runs, keyed by field name (`errors.insert(...)` of
`object.rs` line 144), each field read off the input object by key. -/
def fieldFailures (fields : List (String × Schema)) (flds : List (String × Json)) :
    List (String × VErr) :=
  fields.filterMap (fun p =>
    match validate p.2 "" (List.lookup p.1 flds) with
    | some (.error e) => some (p.1, e)
    | _ => none)

/-- The successful field outputs, keyed by field name (`object.insert`
of `object.rs` line 140); an optional absent field (`Ok(None)`)
contributes nothing. -/
def fieldOutputs (fields : List (String × Schema)) (flds : List (String × Json)) :
    List (String × Json) :=
  fields.filterMap (fun p =>
    match validate p.2 "" (List.lookup p.1 flds) with
    | some (.ok (some v)) => some (p.1, v)
    | _ => none)

/-- Characterization of the field loop of `ObjectSchema::validate`:
with pairwise-distinct configured keys (the `HashMap` invariant) and no
panicking field run, the loop's outcome is assembled pointwise from the
independent field runs — the failures keyed by field name, the outputs
keyed by field name, an optional absent field omitted, all-or-nothing. -/
theorem validateFields_spec :
    ∀ (fields : List (String × Schema)) (flds : List (String × Json))
      (outAcc : List (String × Json)) (errAcc : List (String × VErr)),
      (fields.map Prod.fst).Nodup →
      (∀ p ∈ fields, ∃ r, validate p.2 "" (List.lookup p.1 flds) = some r) →
      validateFields fields flds outAcc errAcc =
        some (
          if (errAcc ++ fieldFailures fields flds).isEmpty then
            .ok (some (.obj (outAcc ++ fieldOutputs fields flds)))
          else .error (.objectErr (errAcc ++ fieldFailures fields flds)))
  | [], flds, outAcc, errAcc, _, _ => by
    simp only [validateFields, fieldFailures, fieldOutputs, List.filterMap_nil,
      List.append_nil]
  | (key, fs) :: rest, flds, outAcc, errAcc, hnodup, h => by
    obtain ⟨r, hr0⟩ := h (key, fs) (by simp)
    have hr : validate fs "" (List.lookup key flds) = some r := hr0
    have hkeys : ∀ p ∈ rest, p.1 ≠ key := by
      intro p hp hk
      have h1 : key ∉ List.map Prod.fst rest := (List.nodup_cons.mp hnodup).1
      exact h1 (hk ▸ List.mem_map_of_mem Prod.fst hp)
    have hlook : ∀ p ∈ rest,
        List.lookup p.1 (objRemove key flds).2 = List.lookup p.1 flds :=
      fun p hp => objRemove_snd_lookup (hkeys p hp) flds
    have hfail : fieldFailures rest (objRemove key flds).2 = fieldFailures rest flds := by
      unfold fieldFailures
      exact List.filterMap_congr (fun p hp => by rw [hlook p hp])
    have hout : fieldOutputs rest (objRemove key flds).2 = fieldOutputs rest flds := by
      unfold fieldOutputs
      exact List.filterMap_congr (fun p hp => by rw [hlook p hp])
    have hnodup2 := (List.nodup_cons.mp hnodup).2
    have h2 : ∀ p ∈ rest,
        ∃ r, validate p.2 "" (List.lookup p.1 (objRemove key flds).2) = some r := by
      intro p hp
      rw [hlook p hp]
      exact h p (by simp [hp])
    have hhead : fieldFailures ((key, fs) :: rest) flds =
        (match validate fs "" (List.lookup key flds) with
          | some (.error e) => some (key, e)
          | _ => none).toList ++ fieldFailures rest flds := by
      cases hv : validate fs "" (List.lookup key flds) with
      | none => simp [fieldFailures, List.filterMap_cons, hv]
      | some r =>
        cases r with
        | error e => simp [fieldFailures, List.filterMap_cons, hv]
        | ok v => cases v <;> simp [fieldFailures, List.filterMap_cons, hv]
    have hheadOut : fieldOutputs ((key, fs) :: rest) flds =
        (match validate fs "" (List.lookup key flds) with
          | some (.ok (some v)) => some (key, v)
          | _ => none).toList ++ fieldOutputs rest flds := by
      cases hv : validate fs "" (List.lookup key flds) with
      | none => simp [fieldOutputs, List.filterMap_cons, hv]
      | some r =>
        cases r with
        | error e => simp [fieldOutputs, List.filterMap_cons, hv]
        | ok v => cases v <;> simp [fieldOutputs, List.filterMap_cons, hv]
    rcases r with e | v
    · simp only [validateFields, objRemove_fst, hr]
      rw [validateFields_spec rest (objRemove key flds).2 outAcc (errAcc ++ [(key, e)])
        hnodup2 h2]
      rw [hfail, hout, hhead, hheadOut, hr]
      simp [List.append_assoc]
    · rcases v with _ | v
      · simp only [validateFields, objRemove_fst, hr]
        rw [validateFields_spec rest (objRemove key flds).2 outAcc errAcc hnodup2 h2]
        rw [hfail, hout, hhead, hheadOut, hr]
        simp
      · simp only [validateFields, objRemove_fst, hr]
        rw [validateFields_spec rest (objRemove key flds).2
          (if errAcc.isEmpty then outAcc ++ [(key, v)] else outAcc) errAcc hnodup2 h2]
        rw [hfail, hout, hhead, hheadOut, hr]
        by_cases he : errAcc.isEmpty <;>
          by_cases hf : (fieldFailures rest flds).isEmpty <;>
          simp [he, hf, List.append_assoc, List.isEmpty_iff] <;>
          simp_all [List.isEmpty_iff]

/-- The object-schema characterization shared by the object claims: for
an object schema with a nonempty, pairwise-distinct field set and an
object input whose field runs do not panic, validation is assembled
pointwise from the independent field runs. -/
theorem objectValidate_spec (fl : Flags) (fields : List (String × Schema))
    (path : String) (flds : List (String × Json))
    (hne : fields ≠ [])
    (hnodup : (fields.map Prod.fst).Nodup)
    (hrun : ∀ p ∈ fields, ∃ r, validate p.2 "" (List.lookup p.1 flds) = some r) :
    validate (.obj fl fields) path (some (.obj flds)) =
      some (
        if (fieldFailures fields flds).isEmpty then
          .ok (some (.obj (fieldOutputs fields flds)))
        else .error (.objectErr (fieldFailures fields flds))) := by
  have hexec : execB .Object asObject Json.obj [] [] fl path (some (.obj flds)) =
      .ok (some (.obj flds)) := rfl
  have hisEmpty : fields.isEmpty = false := by
    simpa [List.isEmpty_iff] using hne
  simp only [validate, hexec, hisEmpty, Bool.false_eq_true, if_false]
  rw [validateFields_spec fields flds [] [] hnodup hrun]
  simp

end Tree

/-- C6.  For every object schema with a nonempty set of configured
fields with pairwise-distinct keys, and every input object whose field
runs do not panic: every configured field is visited exactly once —
the outcome is assembled pointwise from the independent field runs,
regardless of earlier failures; if any field fails, the whole validation
fails with an aggregate keyed exactly by the failing field names, and no
partial output object is ever returned. -/
theorem c6_object_field_aggregation (fl : Tree.Flags)
    (fields : List (String × Tree.Schema)) (path : String)
    (flds : List (String × Json))
    (hne : fields ≠ [])
    (hnodup : (fields.map Prod.fst).Nodup)
    (hrun : ∀ p ∈ fields, ∃ r, Tree.validate p.2 "" (List.lookup p.1 flds) = some r) :
    Tree.validate (.obj fl fields) path (some (.obj flds)) =
      some (
        if (Tree.fieldFailures fields flds).isEmpty then
          .ok (some (.obj (Tree.fieldOutputs fields flds)))
        else .error (.objectErr (Tree.fieldFailures fields flds)))
    ∧ (∀ k e, (k, e) ∈ Tree.fieldFailures fields flds ↔
        ∃ fs, (k, fs) ∈ fields ∧
          Tree.validate fs "" (List.lookup k flds) = some (.error e))
    ∧ (Tree.fieldFailures fields flds ≠ [] →
        ∀ out, Tree.validate (.obj fl fields) path (some (.obj flds)) ≠ some (.ok out)) := by
  have hspec := Tree.objectValidate_spec fl fields path flds hne hnodup hrun
  refine ⟨hspec, fun k e => ?_, fun hfail out => ?_⟩
  · constructor
    · intro hmem
      obtain ⟨p, hp, hmatch⟩ := List.mem_filterMap.mp hmem
      rcases hres : Tree.validate p.2 "" (List.lookup p.1 flds) with _ | r
      · rw [hres] at hmatch
        cases hmatch
      · rw [hres] at hmatch
        rcases r with e' | v
        · simp only [Option.some.injEq, Prod.mk.injEq] at hmatch
          obtain ⟨h1, h2⟩ := hmatch
          subst h1
          subst h2
          exact ⟨p.2, by simpa using hp, hres⟩
        · cases hmatch
    · rintro ⟨fs, hmem, hval⟩
      exact List.mem_filterMap.mpr ⟨(k, fs), hmem, by simp [hval]⟩
  · rw [hspec]
    have : (Tree.fieldFailures fields flds).isEmpty = false := by
      simpa [List.isEmpty_iff] using hfail
    simp [this]

/-- C6, witness: `object().string("a", ..).integer("b", ..)` on
`{"a": null, "b": 5}` fails with an aggregate keyed only under `"a"`. -/
theorem c6_witness :
    Tree.validate
      (.obj Tree.Flags.new
        [("a", .string Tree.Flags.new [] []), ("b", .integer Tree.Flags.new [])]) ""
      (some (.obj [("a", .null), ("b", .num (.pos 5))])) =
      some (.error (.objectErr [("a", .typeErr "" .String)])) := by
  have h := (c6_object_field_aggregation Tree.Flags.new
      [("a", .string Tree.Flags.new [] []), ("b", .integer Tree.Flags.new [])] ""
      [("a", .null), ("b", .num (.pos 5))]
      (by simp) (by simp) ?_).1
  · rw [h]
    simp only [Tree.fieldFailures, Tree.fieldOutputs, List.filterMap_cons,
      List.filterMap_nil, List.lookup, Tree.validate]
    rfl
  · intro p hp
    simp only [List.mem_cons, List.not_mem_nil, or_false] at hp
    rcases hp with rfl | rfl
    · exact ⟨.error (.typeErr "" .String), by simp only [Tree.validate]; rfl⟩
    · exact ⟨.ok (some (.num (.pos 5))), by simp only [Tree.validate]; rfl⟩

namespace Tree

theorem lookup_eq_none_of_no_key {α : Type} (k : String) (l : List (String × α))
    (h : ∀ v, (k, v) ∉ l) : List.lookup k l = none := by
  induction l with
  | nil => rfl
  | cons p rest ih =>
    obtain ⟨k', v'⟩ := p
    by_cases hk : k = k'
    · subst hk
      exact absurd (List.mem_cons_self _ _) (h v')
    · have hb : (k == k') = false := beq_eq_false_iff_ne.mpr hk
      simp only [List.lookup, hb]
      exact ih (fun v hv => h v (List.mem_cons_of_mem _ hv))

theorem nodup_keys_unique {α : Type} {l : List (String × α)}
    (h : (l.map Prod.fst).Nodup) {k : String} {a b : α}
    (ha : (k, a) ∈ l) (hb : (k, b) ∈ l) : a = b := by
  induction l with
  | nil => cases ha
  | cons p rest ih =>
    obtain ⟨k', v'⟩ := p
    rw [List.map_cons] at h
    obtain ⟨hk, hrest⟩ := List.nodup_cons.mp h
    rcases List.mem_cons.mp ha with ha1 | ha1 <;>
      rcases List.mem_cons.mp hb with hb1 | hb1
    · injection ha1 with hak hav
      injection hb1 with hbk hbv
      exact hav.trans hbv.symm
    · injection ha1 with hak hav
      have hmem : k ∈ List.map Prod.fst rest := List.mem_map_of_mem Prod.fst hb1
      rw [← hak] at hk
      exact absurd hmem hk
    · injection hb1 with hbk hbv
      have hmem : k ∈ List.map Prod.fst rest := List.mem_map_of_mem Prod.fst ha1
      rw [← hbk] at hk
      exact absurd hmem hk
    · exact ih hrest ha1 hb1

end Tree

/-- C8, counterexample.  The claim quantifies over *every* object schema
and asserts that undeclared input keys are dropped from the output; but
an object schema with no configured fields returns the validated input
object unchanged (`object.rs` line 123), keeping its (necessarily
undeclared) keys: `object().validate(json!({"a": 1}))` succeeds with
`{"a": 1}`. -/
theorem c8_counterexample_fieldless_object :
    Tree.validate (.obj Tree.Flags.new []) "" (some (.obj [("a", .num (.pos 1))])) =
      some (.ok (some (.obj [("a", .num (.pos 1))]))) := by
  simp only [Tree.validate]
  rfl

/-- C8, amended.  For every object schema with at least one configured
field, with pairwise-distinct keys, and every input object (with
non-panicking field runs) that validates successfully: the output object
is exactly the keyed field outputs — it contains only keys declared in
the schema, a declared field whose run reports "no value" (optional and
absent) is simply omitted, and an input key not declared in the schema
is absent from the output. -/
theorem c8_object_output_keys (fl : Tree.Flags)
    (fields : List (String × Tree.Schema)) (path : String)
    (flds : List (String × Json)) (out : Json)
    (hne : fields ≠ [])
    (hnodup : (fields.map Prod.fst).Nodup)
    (hrun : ∀ p ∈ fields, ∃ r, Tree.validate p.2 "" (List.lookup p.1 flds) = some r)
    (hok : Tree.validate (.obj fl fields) path (some (.obj flds)) =
      some (.ok (some out))) :
    out = .obj (Tree.fieldOutputs fields flds)
    ∧ (∀ k v, (k, v) ∈ Tree.fieldOutputs fields flds → ∃ fs, (k, fs) ∈ fields)
    ∧ (∀ k fs, (k, fs) ∈ fields →
        Tree.validate fs "" (List.lookup k flds) = some (.ok none) →
        List.lookup k (Tree.fieldOutputs fields flds) = none)
    ∧ (∀ k, (∀ fs, (k, fs) ∉ fields) →
        List.lookup k (Tree.fieldOutputs fields flds) = none) := by
  have hspec := Tree.objectValidate_spec fl fields path flds hne hnodup hrun
  have hkeyed : ∀ k v, (k, v) ∈ Tree.fieldOutputs fields flds →
      ∃ fs, (k, fs) ∈ fields ∧
        Tree.validate fs "" (List.lookup k flds) = some (.ok (some v)) := by
    intro k v hmem
    obtain ⟨p, hp, hmatch⟩ := List.mem_filterMap.mp hmem
    rcases hres : Tree.validate p.2 "" (List.lookup p.1 flds) with _ | r
    · rw [hres] at hmatch
      cases hmatch
    · rw [hres] at hmatch
      rcases r with e | w
      · cases hmatch
      · rcases w with _ | w
        · cases hmatch
        · simp only [Option.some.injEq, Prod.mk.injEq] at hmatch
          obtain ⟨h1, h2⟩ := hmatch
          subst h1
          subst h2
          exact ⟨p.2, by simpa using hp, hres⟩
  refine ⟨?_, fun k v hmem => (hkeyed k v hmem).imp (fun fs hfs => hfs.1), ?_, ?_⟩
  · rw [hspec] at hok
    by_cases hf : (Tree.fieldFailures fields flds).isEmpty <;> simp [hf] at hok
    exact hok.symm
  · intro k fs hmem hnone
    refine Tree.lookup_eq_none_of_no_key k _ (fun v hv => ?_)
    obtain ⟨fs', hfs', hval⟩ := hkeyed k v hv
    have : fs' = fs := Tree.nodup_keys_unique hnodup hfs' hmem
    rw [this, hnone] at hval
    cases hval
  · intro k hnotin
    refine Tree.lookup_eq_none_of_no_key k _ (fun v hv => ?_)
    obtain ⟨fs', hfs', _⟩ := hkeyed k v hv
    exact hnotin fs' hfs'

/-- C8, witness for the amended theorem: an object schema declaring one
optional string field `"a"`, on input `{"b": 1}` — validation succeeds
with the empty object: the optional absent `"a"` is omitted and the
undeclared `"b"` is dropped. -/
theorem c8_witness :
    Tree.validate (.obj Tree.Flags.new [("a", .string ⟨true, false⟩ [] [])]) ""
      (some (.obj [("b", .num (.pos 1))])) = some (.ok (some (.obj [])))
    ∧ List.lookup "a"
        (Tree.fieldOutputs [("a", .string ⟨true, false⟩ [] [])] [("b", .num (.pos 1))]) = none
    ∧ List.lookup "b"
        (Tree.fieldOutputs [("a", .string ⟨true, false⟩ [] [])] [("b", .num (.pos 1))]) = none := by
  have hok : Tree.validate (.obj Tree.Flags.new [("a", .string ⟨true, false⟩ [] [])]) ""
      (some (.obj [("b", .num (.pos 1))])) = some (.ok (some (.obj []))) := by
    simp only [Tree.validate, Tree.validateFields]
    rfl
  have h := c8_object_output_keys Tree.Flags.new [("a", .string ⟨true, false⟩ [] [])] ""
    [("b", .num (.pos 1))] (.obj []) (by simp) (by simp)
    (fun p hp => by
      simp only [List.mem_cons, List.not_mem_nil, or_false] at hp
      subst hp
      exact ⟨.ok none, by simp only [Tree.validate]; rfl⟩)
    hok
  exact ⟨hok,
    h.2.2.1 "a" (.string ⟨true, false⟩ [] []) (by simp)
      (by simp only [Tree.validate]; rfl),
    h.2.2.2 "b" (by simp)⟩

/-! ## Claim C9: idempotence of the validation pipeline

The string transforms `trim` / `uppercase` / `lowercase` generate, under
composition, a monoid of six idempotent normalizers; this section proves
the algebra, then the re-validation property for every schema. -/

namespace Tree

theorem toNat_ofNat_alpha {m : Nat} (h1 : 65 ≤ m) (h2 : m ≤ 122) :
    (Char.ofNat m).toNat = m := by
  interval_cases m <;> decide

theorem isWhitespaceCode_alpha {m : Nat} (h1 : 65 ≤ m) (h2 : m ≤ 122) :
    isWhitespaceCode m = false := by
  interval_cases m <;> decide

theorem upperChar_toNat_of_lower {c : Char} (h : 97 ≤ c.toNat ∧ c.toNat ≤ 122) :
    (upperChar c).toNat = c.toNat - 32 := by
  rw [upperChar, if_pos h]
  exact toNat_ofNat_alpha (by omega) (by omega)

theorem lowerChar_toNat_of_upper {c : Char} (h : 65 ≤ c.toNat ∧ c.toNat ≤ 90) :
    (lowerChar c).toNat = c.toNat + 32 := by
  rw [lowerChar, if_pos h]
  exact toNat_ofNat_alpha (by omega) (by omega)

theorem upperChar_idem (c : Char) : upperChar (upperChar c) = upperChar c := by
  by_cases h : 97 ≤ c.toNat ∧ c.toNat ≤ 122
  · have ht := upperChar_toNat_of_lower h
    rw [upperChar, if_neg (by rw [ht]; omega)]
  · have hc : upperChar c = c := by rw [upperChar, if_neg h]
    rw [hc, hc]

theorem lowerChar_idem (c : Char) : lowerChar (lowerChar c) = lowerChar c := by
  by_cases h : 65 ≤ c.toNat ∧ c.toNat ≤ 90
  · have ht := lowerChar_toNat_of_upper h
    rw [lowerChar, if_neg (by rw [ht]; omega)]
  · have hc : lowerChar c = c := by rw [lowerChar, if_neg h]
    rw [hc, hc]

theorem upperChar_lowerChar (c : Char) : upperChar (lowerChar c) = upperChar c := by
  by_cases h : 65 ≤ c.toNat ∧ c.toNat ≤ 90
  · have ht := lowerChar_toNat_of_upper h
    have h2 : 97 ≤ (lowerChar c).toNat ∧ (lowerChar c).toNat ≤ 122 := by omega
    rw [upperChar, if_pos h2, ht]
    have h3 : c.toNat + 32 - 32 = c.toNat := by omega
    rw [h3, Char.ofNat_toNat, upperChar, if_neg (by omega)]
  · rw [lowerChar, if_neg h]

theorem lowerChar_upperChar (c : Char) : lowerChar (upperChar c) = lowerChar c := by
  by_cases h : 97 ≤ c.toNat ∧ c.toNat ≤ 122
  · have ht := upperChar_toNat_of_lower h
    have h2 : 65 ≤ (upperChar c).toNat ∧ (upperChar c).toNat ≤ 90 := by omega
    rw [lowerChar, if_pos h2, ht]
    have h3 : c.toNat - 32 + 32 = c.toNat := by omega
    rw [h3, Char.ofNat_toNat, lowerChar, if_neg (by omega)]
  · rw [upperChar, if_neg h]

theorem isWhitespaceChar_upperChar (c : Char) :
    isWhitespaceChar (upperChar c) = isWhitespaceChar c := by
  by_cases h : 97 ≤ c.toNat ∧ c.toNat ≤ 122
  · have ht := upperChar_toNat_of_lower h
    unfold isWhitespaceChar
    rw [ht, isWhitespaceCode_alpha (by omega) (by omega),
      isWhitespaceCode_alpha (by omega) (by omega)]
  · rw [upperChar, if_neg h]

theorem isWhitespaceChar_lowerChar (c : Char) :
    isWhitespaceChar (lowerChar c) = isWhitespaceChar c := by
  by_cases h : 65 ≤ c.toNat ∧ c.toNat ≤ 90
  · have ht := lowerChar_toNat_of_upper h
    unfold isWhitespaceChar
    rw [ht, isWhitespaceCode_alpha (by omega) (by omega),
      isWhitespaceCode_alpha (by omega) (by omega)]
  · rw [lowerChar, if_neg h]

end Tree

namespace Tree

theorem dropWhile_map_comm (f : Char → Char) (p : Char → Bool)
    (hpf : ∀ c, p (f c) = p c) :
    ∀ l : List Char, (l.dropWhile p).map f = (l.map f).dropWhile p := by
  intro l
  induction l with
  | nil => rfl
  | cons a t ih =>
    by_cases h : p a
    · simp [List.dropWhile_cons, h, hpf, ih]
    · simp [List.dropWhile_cons, h, hpf]

theorem rdropWhile_map_comm (f : Char → Char) (p : Char → Bool)
    (hpf : ∀ c, p (f c) = p c) (l : List Char) :
    (List.rdropWhile p l).map f = List.rdropWhile p (l.map f) := by
  unfold List.rdropWhile
  rw [← List.map_reverse, ← dropWhile_map_comm f p hpf, List.map_reverse]

theorem mapString_mapString (f g h : Char → Char)
    (hfg : ∀ c, f (g c) = h c) (s : String) :
    (⟨(⟨s.data.map g⟩ : String).data.map f⟩ : String) = ⟨s.data.map h⟩ := by
  show (⟨(s.data.map g).map f⟩ : String) = ⟨s.data.map h⟩
  rw [List.map_map]
  congr 1
  exact List.map_congr_left (fun a _ => hfg a)

theorem upperString_upperString (s : String) :
    upperString (upperString s) = upperString s :=
  mapString_mapString upperChar upperChar upperChar upperChar_idem s

theorem lowerString_lowerString (s : String) :
    lowerString (lowerString s) = lowerString s :=
  mapString_mapString lowerChar lowerChar lowerChar lowerChar_idem s

theorem upperString_lowerString (s : String) :
    upperString (lowerString s) = upperString s :=
  mapString_mapString upperChar lowerChar upperChar upperChar_lowerChar s

theorem lowerString_upperString (s : String) :
    lowerString (upperString s) = lowerString s :=
  mapString_mapString lowerChar upperChar lowerChar lowerChar_upperChar s

theorem dropWhile_rdropWhile_self (p : Char → Bool) (m : List Char)
    (hm : m.dropWhile p = m) :
    (List.rdropWhile p m).dropWhile p = List.rdropWhile p m := by
  rcases hr : List.rdropWhile p m with _ | ⟨a, t⟩
  · rfl
  · have hpre : List.rdropWhile p m <+: m := List.rdropWhile_prefix p m
    rw [hr] at hpre
    obtain ⟨tail, htail⟩ := hpre
    have hm2 : m = a :: (t ++ tail) := by
      rw [← htail]
      rfl
    have hnot : ¬ p a = true := by
      intro hpa
      rw [hm2, List.dropWhile_cons, if_pos hpa] at hm
      have hlen := congrArg List.length hm
      have hle := ((List.dropWhile_sublist p).length_le : (List.dropWhile p (t ++ tail)).length ≤ (t ++ tail).length)
      simp only [List.length_cons, List.length_append] at hlen hle
      omega
    rw [List.dropWhile_cons, if_neg hnot]

theorem trimString_idem (s : String) : trimString (trimString s) = trimString s := by
  unfold trimString
  have hidem : (s.data.dropWhile isWhitespaceChar).dropWhile isWhitespaceChar =
      s.data.dropWhile isWhitespaceChar := List.dropWhile_idempotent _ _
  show (⟨List.rdropWhile isWhitespaceChar
      ((List.rdropWhile isWhitespaceChar (s.data.dropWhile isWhitespaceChar)).dropWhile
        isWhitespaceChar)⟩ : String) = _
  rw [dropWhile_rdropWhile_self isWhitespaceChar _ hidem, List.rdropWhile_idempotent]

theorem upperString_trimString (s : String) :
    upperString (trimString s) = trimString (upperString s) := by
  unfold trimString upperString
  show (⟨(List.rdropWhile isWhitespaceChar (s.data.dropWhile isWhitespaceChar)).map
      upperChar⟩ : String) = _
  rw [rdropWhile_map_comm upperChar isWhitespaceChar isWhitespaceChar_upperChar,
    dropWhile_map_comm upperChar isWhitespaceChar isWhitespaceChar_upperChar]

theorem lowerString_trimString (s : String) :
    lowerString (trimString s) = trimString (lowerString s) := by
  unfold trimString lowerString
  show (⟨(List.rdropWhile isWhitespaceChar (s.data.dropWhile isWhitespaceChar)).map
      lowerChar⟩ : String) = _
  rw [rdropWhile_map_comm lowerChar isWhitespaceChar isWhitespaceChar_lowerChar,
    dropWhile_map_comm lowerChar isWhitespaceChar isWhitespaceChar_lowerChar]

end Tree

namespace Tree

/-- The case component of a composed transform's normal form. -/
inductive CaseOp where
  | noop
  | up
  | low

/-- Apply the case component. -/
def caseApply : CaseOp → String → String
  | .noop, s => s
  | .up, s => upperString s
  | .low, s => lowerString s

/-- Apply a normal form (a case map, then an optional trim; the two
commute). -/
def canonApply (n : CaseOp × Bool) (s : String) : String :=
  if n.2 then trimString (caseApply n.1 s) else caseApply n.1 s

/-- Fold one more transform into a normal form. -/
def stepNorm (n : CaseOp × Bool) : StrTransform → CaseOp × Bool
  | .trim => (n.1, true)
  | .uppercase => (.up, n.2)
  | .lowercase => (.low, n.2)

theorem caseApply_upper (c : CaseOp) (s : String) :
    upperString (caseApply c s) = upperString s := by
  cases c with
  | noop => rfl
  | up => exact upperString_upperString s
  | low => exact upperString_lowerString s

theorem caseApply_lower (c : CaseOp) (s : String) :
    lowerString (caseApply c s) = lowerString s := by
  cases c with
  | noop => rfl
  | up => exact lowerString_upperString s
  | low => exact lowerString_lowerString s

theorem apply_canonApply (n : CaseOp × Bool) (g : StrTransform) (s : String) :
    g.apply (canonApply n s) = canonApply (stepNorm n g) s := by
  obtain ⟨c, t⟩ := n
  cases g with
  | trim =>
    cases t with
    | false => rfl
    | true =>
      show trimString (trimString (caseApply c s)) = trimString (caseApply c s)
      exact trimString_idem _
  | uppercase =>
    cases t with
    | false =>
      show upperString (caseApply c s) = caseApply .up s
      exact caseApply_upper c s
    | true =>
      show upperString (trimString (caseApply c s)) = trimString (caseApply .up s)
      rw [upperString_trimString, caseApply_upper c s]
      rfl
  | lowercase =>
    cases t with
    | false =>
      show lowerString (caseApply c s) = caseApply .low s
      exact caseApply_lower c s
    | true =>
      show lowerString (trimString (caseApply c s)) = trimString (caseApply .low s)
      rw [lowerString_trimString, caseApply_lower c s]
      rfl

theorem applyTransforms_canon (ts : List StrTransform) :
    ∀ (n : CaseOp × Bool) (s : String),
      applyTransforms ts (canonApply n s) = canonApply (ts.foldl stepNorm n) s := by
  induction ts with
  | nil => intro n s; rfl
  | cons g rest ih =>
    intro n s
    show applyTransforms rest (g.apply (canonApply n s)) = _
    rw [apply_canonApply n g s, ih (stepNorm n g) s]
    rfl

theorem canonApply_idem (n : CaseOp × Bool) (s : String) :
    canonApply n (canonApply n s) = canonApply n s := by
  obtain ⟨c, t⟩ := n
  have hcase : ∀ x : String, caseApply c (caseApply c x) = caseApply c x := by
    intro x
    cases c with
    | noop => rfl
    | up => exact upperString_upperString x
    | low => exact lowerString_lowerString x
  have hcase_trim : ∀ x : String, caseApply c (trimString x) = trimString (caseApply c x) := by
    intro x
    cases c with
    | noop => rfl
    | up => exact upperString_trimString x
    | low => exact lowerString_trimString x
  cases t with
  | false => exact hcase s
  | true =>
    show trimString (caseApply c (trimString (caseApply c s))) =
      trimString (caseApply c s)
    rw [hcase_trim, hcase, trimString_idem]

theorem applyTransforms_idem (ts : List StrTransform) (s : String) :
    applyTransforms ts (applyTransforms ts s) = applyTransforms ts s := by
  have h0 : ∀ x : String,
      applyTransforms ts x = canonApply (ts.foldl stepNorm (.noop, false)) x := by
    intro x
    have h := applyTransforms_canon ts (.noop, false) x
    have hid : canonApply (.noop, false) x = x := rfl
    rw [hid] at h
    exact h
  rw [h0, h0 s, canonApply_idem]

end Tree

/-- Well-formed `serde_json` values: a `NegInt` representation is
negative (as `serde_json` guarantees for every parsed or constructed
number). -/
inductive Json.WF : Json → Prop where
  | null : WF .null
  | bool (b : Bool) : WF (.bool b)
  | posNum (n : Nat) : WF (.num (.pos n))
  | negNum (i : Int) : i < 0 → WF (.num (.neg i))
  | floatNum (q : ℚ) : WF (.num (.float q))
  | str (s : String) : WF (.str s)
  | arr (elems : List Json) : (∀ e ∈ elems, WF e) → WF (.arr elems)
  | obj (fields : List (String × Json)) : (∀ p ∈ fields, WF p.2) → WF (.obj fields)

namespace Tree

/-- Well-formed schemas: every object node's configured keys are
pairwise distinct (the `HashMap` invariant of `ObjectSchema`). -/
inductive Schema.WFS : Schema → Prop where
  | boolean (fl : Flags) : WFS (.boolean fl)
  | integer (fl : Flags) (ts : List (NumTest Int)) : WFS (.integer fl ts)
  | unsigned (fl : Flags) (ts : List (NumTest Nat)) : WFS (.unsigned fl ts)
  | float (fl : Flags) (ts : List (NumTest ℚ)) : WFS (.float fl ts)
  | string (fl : Flags) (trs : List StrTransform) (ts : List StrTest) :
      WFS (.string fl trs ts)
  | arrayNone (fl : Flags) (ts : List ArrTest) : WFS (.array fl ts none)
  | arraySome (fl : Flags) (ts : List ArrTest) (es : Schema) :
      WFS es → WFS (.array fl ts (some es))
  | obj (fl : Flags) (fields : List (String × Schema)) :
      (fields.map Prod.fst).Nodup → (∀ p ∈ fields, WFS p.2) →
      WFS (.obj fl fields)

/-- Success inversion for the coerce/deserialize/transform/test stage. -/
theorem execCoerce_ok {T : Type} {target : JsonType} {fj : Json → Option T}
    {tj : T → Json} {trs : List (T → T)} {checks : List (T → Option VErr)}
    {path : String} {j : Json} {v : Option Json}
    (h : execCoerce target fj tj trs checks path j = .ok v) :
    ∃ cj t0, target.coerce j = .ok cj ∧ fj cj = some t0 ∧
      checks.filterMap (fun ch => ch (trs.foldl (fun t f => f t) t0)) = [] ∧
      v = some (tj (trs.foldl (fun t f => f t) t0)) := by
  rcases hco : target.coerce j with u | cj
  · simp only [execCoerce, hco] at h
    exact Except.noConfusion h
  · simp only [execCoerce, hco] at h
    rcases hfj : fj cj with _ | t0
    · simp only [hfj] at h
      exact Except.noConfusion h
    · simp only [hfj] at h
      rcases hch : checks.filterMap
          (fun ch => ch (trs.foldl (fun t f => f t) t0)) with _ | ⟨e, es⟩
      · rw [hch] at h
        simp only [Except.ok.injEq] at h
        exact ⟨cj, t0, rfl, hfj, hch, h.symm⟩
      · rw [hch] at h
        cases h

/-- The stage succeeds, reproducing the value, on a fixpoint of the
composed transform that coerces verbatim, deserializes to itself, and
passes every check. -/
theorem execCoerce_fixpoint {T : Type} {target : JsonType} {fj : Json → Option T}
    {tj : T → Json} {trs : List (T → T)} {checks : List (T → Option VErr)}
    {path : String} {t : T}
    (hco : target.coerce (tj t) = .ok (tj t))
    (hfj : fj (tj t) = some t)
    (hfix : trs.foldl (fun t f => f t) t = t)
    (hch : checks.filterMap (fun ch => ch t) = []) :
    execCoerce target fj tj trs checks path (tj t) = .ok (some (tj t)) := by
  simp only [execCoerce, hco, hfj, hfix, hch]

theorem execB_none {T : Type} (target : JsonType) (fj : Json → Option T)
    (tj : T → Json) (trs : List (T → T)) (checks : List (T → Option VErr))
    (fl : Flags) (path : String) :
    execB target fj tj trs checks fl path none =
      if fl.optional then .ok none else .error (.typeErr path target) := rfl

theorem execB_some_non_null {T : Type} (target : JsonType) (fj : Json → Option T)
    (tj : T → Json) (trs : List (T → T)) (checks : List (T → Option VErr))
    (fl : Flags) (path : String) (j : Json) (hj : j ≠ .null) :
    execB target fj tj trs checks fl path (some j) =
      execCoerce target fj tj trs checks path j := by
  rcases j with _ | b | n | s | l | flds
  · exact absurd rfl hj
  all_goals rfl

theorem execB_some_null {T : Type} (target : JsonType) (fj : Json → Option T)
    (tj : T → Json) (trs : List (T → T)) (checks : List (T → Option VErr))
    (fl : Flags) (path : String) :
    execB target fj tj trs checks fl path (some .null) =
      if fl.nullable then .ok (some .null)
      else execCoerce target fj tj trs checks path .null := rfl

theorem execB_ok_none {T : Type} {target : JsonType} {fj : Json → Option T}
    {tj : T → Json} {trs : List (T → T)} {checks : List (T → Option VErr)}
    {fl : Flags} {path : String} {x : Option Json}
    (h : execB target fj tj trs checks fl path x = .ok none) :
    x = none ∧ fl.optional = true := by
  have hgo : ∀ json, execCoerce target fj tj trs checks path json ≠
      .ok (none : Option Json) := by
    intro json hc
    obtain ⟨cj, t0, _, _, _, hv⟩ := execCoerce_ok hc
    cases hv
  rcases x with _ | j
  · rw [execB_none] at h
    by_cases ho : fl.optional = true
    · exact ⟨rfl, ho⟩
    · rw [if_neg ho] at h
      exact Except.noConfusion h
  · exfalso
    by_cases hj : j = Json.null
    · subst hj
      rw [execB_some_null] at h
      by_cases hn : fl.nullable = true
      · rw [if_pos hn] at h
        cases h
      · rw [if_neg hn] at h
        exact hgo .null h
    · rw [execB_some_non_null target fj tj trs checks fl path j hj] at h
      exact hgo j h

/-- Re-validation for the generic §4.2 stage: if a run succeeds, feeding
the produced value back through the same configuration succeeds with the
same value; `P` carries the reachable-value invariant of the native
type. -/
theorem execB_revalidate {T : Type} {target : JsonType} {fj : Json → Option T}
    {tj : T → Json} {trs : List (T → T)} {checks : List (T → Option VErr)}
    {fl : Flags} {path : String} {x v : Option Json} (P : T → Prop)
    (hreach : ∀ j, Json.WF j → ∀ cj t0, target.coerce j = .ok cj → fj cj = some t0 →
      P (trs.foldl (fun t f => f t) t0))
    (hco : ∀ t, P t → target.coerce (tj t) = .ok (tj t))
    (hfj : ∀ t, P t → fj (tj t) = some t)
    (hnn : ∀ t, tj t ≠ .null)
    (hfix : ∀ t, P t → trs.foldl (fun t f => f t) t = t)
    (hWFx : ∀ j, x = some j → Json.WF j)
    (h : execB target fj tj trs checks fl path x = .ok v) :
    execB target fj tj trs checks fl path v = .ok v := by
  have hgo : ∀ j, Json.WF j → execCoerce target fj tj trs checks path j = .ok v →
      execB target fj tj trs checks fl path v = .ok v := by
    intro j hWF hc
    obtain ⟨cj, t0, hco1, hfj1, hch1, hv⟩ := execCoerce_ok hc
    have hP : P (trs.foldl (fun t f => f t) t0) := hreach j hWF cj t0 hco1 hfj1
    set t := trs.foldl (fun t f => f t) t0 with hts
    subst hv
    have hfx : execCoerce target fj tj trs checks path (tj t) = .ok (some (tj t)) :=
      execCoerce_fixpoint (hco t hP) (hfj t hP) (hfix t hP) hch1
    rw [execB_some_non_null target fj tj trs checks fl path (tj t) (hnn t)]
    exact hfx
  rcases x with _ | j
  · rw [execB_none] at h
    by_cases ho : fl.optional = true
    · rw [if_pos ho] at h
      cases h
      rw [execB_none, if_pos ho]
    · rw [if_neg ho] at h
      exact Except.noConfusion h
  · by_cases hj : j = Json.null
    · subst hj
      rw [execB_some_null] at h
      by_cases hn : fl.nullable = true
      · rw [if_pos hn] at h
        cases h
        rw [execB_some_null, if_pos hn]
      · rw [if_neg hn] at h
        exact hgo .null .null h
    · rw [execB_some_non_null target fj tj trs checks fl path j hj] at h
      exact hgo j (hWFx j rfl) h

end Tree

namespace Tree

/-- Values reachable in the native `i64` after integer coercion: within
the signed 64-bit range whenever non-negative. -/
def i64Reach (t : Int) : Prop := t < 0 ∨ (0 ≤ t ∧ t ≤ i64Max)

theorem i64_fromJson_numOfInt {m : Int} (h1 : i64Min ≤ m) (h2 : m ≤ i64Max) :
    Core.i64Codec.fromJson (.num (numOfInt m)) = some m := by
  unfold numOfInt
  by_cases h0 : 0 ≤ m
  · rw [if_pos h0]
    show (if m.toNat ≤ i64MaxN then some (m.toNat : Int) else none) = some m
    rw [if_pos (by simp only [i64MaxN]; simp only [i64Max] at h2; omega)]
    simp
    omega
  · rw [if_neg h0]
    rfl

theorem integer_coerce_numOfInt {t : Int} (hP : i64Reach t) :
    JsonType.Integer.coerce (.num (numOfInt t)) = .ok (.num (numOfInt t)) := by
  unfold numOfInt
  rcases hP with h | ⟨h1, h2⟩
  · rw [if_neg (by omega)]
    rfl
  · rw [if_pos h1]
    show (if t.toNat ≤ i64MaxN then Except.ok (Json.num (.pos t.toNat)) else .error ()) = _
    rw [if_pos (by simp only [i64MaxN]; simp only [i64Max] at h2; omega)]

theorem parseI64_range {s : String} {i : Int} (h : parseI64 s = some i) :
    i64Min ≤ i ∧ i ≤ i64Max := by
  unfold parseI64 at h
  rcases hd : digitsToNat (parseSign s.data).2 with _ | n
  · simp only [hd] at h
    cases h
  · simp only [hd] at h
    by_cases hr : i64Min ≤ (parseSign s.data).1 * n ∧ (parseSign s.data).1 * n ≤ i64Max
    · rw [if_pos hr] at h
      cases h
      exact hr
    · rw [if_neg hr] at h
      cases h

theorem integer_reach (j : Json) (hWF : Json.WF j) (cj : Json) (t0 : Int)
    (hco : JsonType.Integer.coerce j = .ok cj)
    (hfj : Core.i64Codec.fromJson cj = some t0) : i64Reach t0 := by
  rcases j with _ | b | n | s | l | flds
  · cases hco
  · cases hco
  · rcases n with n | i | q
    · by_cases hn : n ≤ i64MaxN
      · have : JsonType.Integer.coerce (.num (.pos n)) = .ok (.num (.pos n)) := by
          simp [JsonType.coerce, hn]
        rw [this] at hco
        cases hco
        have : Core.i64Codec.fromJson (.num (.pos n)) = some (n : Int) := by
          show (if n ≤ i64MaxN then some ((n : Int)) else none) = some (n : Int)
          rw [if_pos hn]
        rw [this] at hfj
        cases hfj
        right
        constructor
        · omega
        · simp only [i64Max, i64MaxN] at hn ⊢
          omega
      · have : JsonType.Integer.coerce (.num (.pos n)) = .error () := by
          simp [JsonType.coerce, hn]
        rw [this] at hco
        cases hco
    · have : JsonType.Integer.coerce (.num (.neg i)) = .ok (.num (.neg i)) := rfl
      rw [this] at hco
      cases hco
      have hneg : i < 0 := by
        cases hWF with
        | negNum _ h => exact h
      have : Core.i64Codec.fromJson (.num (.neg i)) = some i := rfl
      rw [this] at hfj
      cases hfj
      exact Or.inl hneg
    · by_cases hq : q.den = 1
      · have : JsonType.Integer.coerce (.num (.float q)) =
            .ok (.num (numOfInt (clampI64 q.num))) := by
          simp [JsonType.coerce, hq]
        rw [this] at hco
        cases hco
        have hcl : i64Min ≤ clampI64 q.num ∧ clampI64 q.num ≤ i64Max := by
          unfold clampI64
          constructor
          · exact le_max_left _ _
          · simp only [i64Max, i64Min]
            omega
        rw [i64_fromJson_numOfInt hcl.1 hcl.2] at hfj
        cases hfj
        unfold i64Reach
        omega
      · have : JsonType.Integer.coerce (.num (.float q)) = .error () := by
          simp [JsonType.coerce, hq]
        rw [this] at hco
        cases hco
  · rcases hp : parseI64 s with _ | i
    · have : JsonType.Integer.coerce (.str s) = .error () := by
        simp [JsonType.coerce, hp]
      rw [this] at hco
      cases hco
    · have : JsonType.Integer.coerce (.str s) = .ok (.num (numOfInt i)) := by
        simp [JsonType.coerce, hp]
      rw [this] at hco
      cases hco
      obtain ⟨h1, h2⟩ := parseI64_range hp
      rw [i64_fromJson_numOfInt h1 h2] at hfj
      cases hfj
      unfold i64Reach
      omega
  · cases hco
  · cases hco

end Tree

namespace Tree

theorem i64_fromJson_roundTrip {t : Int} (hP : i64Reach t) :
    Core.i64Codec.fromJson (.num (numOfInt t)) = some t := by
  rcases hP with h | ⟨h1, h2⟩
  · unfold numOfInt
    rw [if_neg (by omega)]
    rfl
  · exact i64_fromJson_numOfInt (by simp only [i64Min]; omega) h2

theorem foldl_map_apply (trs : List StrTransform) (s : String) :
    (trs.map StrTransform.apply).foldl (fun t f => f t) s = applyTransforms trs s := by
  rw [List.foldl_map]
  rfl

theorem validateElems_ne_ok_none (es : Schema) (path : String) :
    ∀ (l : List Json) (start : Nat) (outAcc : List Json) (errs : List (Nat × VErr)),
      validateElems es path l start outAcc errs ≠ some (.ok none) := by
  intro l
  induction l with
  | nil =>
    intro start outAcc errs h
    simp only [validateElems] at h
    by_cases he : errs.isEmpty <;> simp [he] at h
  | cons el rest ih =>
    intro start outAcc errs h
    simp only [validateElems] at h
    rcases hr : validate es (childPath path start) (some el) with _ | r
    · rw [hr] at h
      cases h
    · rw [hr] at h
      rcases r with e | v
      · exact ih _ _ _ h
      · rcases v with _ | v
        · cases h
        · exact ih _ _ _ h

theorem validateFields_ne_ok_none :
    ∀ (fields : List (String × Schema)) (flds outAcc : List (String × Json))
      (errs : List (String × VErr)),
      validateFields fields flds outAcc errs ≠ some (.ok none) := by
  intro fields
  induction fields with
  | nil =>
    intro flds outAcc errs h
    simp only [validateFields] at h
    by_cases he : errs.isEmpty <;> simp [he] at h
  | cons p rest ih =>
    obtain ⟨key, fs⟩ := p
    intro flds outAcc errs h
    simp only [validateFields] at h
    rcases hr : validate fs "" (objRemove key flds).1 with _ | r
    · rw [hr] at h
      cases h
    · rw [hr] at h
      rcases r with e | v
      · exact ih _ _ _ h
      · rcases v with _ | v
        · exact ih _ _ _ h
        · exact ih _ _ _ h

theorem validate_ok_none :
    ∀ (S : Schema) (path : String) (x : Option Json),
      validate S path x = some (.ok none) →
      x = none ∧ validate S path none = some (.ok none) := by
  have hprim : ∀ {T : Type} (target : JsonType) (fj : Json → Option T) (tj : T → Json)
      (trs : List (T → T)) (checks : List (T → Option VErr)) (fl : Flags) (path : String)
      (x : Option Json),
      execB target fj tj trs checks fl path x = .ok none →
      x = none ∧ execB target fj tj trs checks fl path none = .ok none := by
    intro T target fj tj trs checks fl path x h
    obtain ⟨hx, ho⟩ := execB_ok_none h
    exact ⟨hx, by rw [execB_none, if_pos ho]⟩
  intro S path x
  cases S with
  | boolean fl =>
    intro h
    simp only [validate, Option.some.injEq] at h
    obtain ⟨hx, h2⟩ := hprim _ _ _ _ _ _ _ _ h
    exact ⟨hx, by simp only [validate, h2]⟩
  | integer fl ts =>
    intro h
    simp only [validate, Option.some.injEq] at h
    obtain ⟨hx, h2⟩ := hprim _ _ _ _ _ _ _ _ h
    exact ⟨hx, by simp only [validate, h2]⟩
  | unsigned fl ts =>
    intro h
    simp only [validate, Option.some.injEq] at h
    obtain ⟨hx, h2⟩ := hprim _ _ _ _ _ _ _ _ h
    exact ⟨hx, by simp only [validate, h2]⟩
  | float fl ts =>
    intro h
    simp only [validate, Option.some.injEq] at h
    obtain ⟨hx, h2⟩ := hprim _ _ _ _ _ _ _ _ h
    exact ⟨hx, by simp only [validate, h2]⟩
  | string fl trs ts =>
    intro h
    simp only [validate, Option.some.injEq] at h
    obtain ⟨hx, h2⟩ := hprim _ _ _ _ _ _ _ _ h
    exact ⟨hx, by simp only [validate, h2]⟩
  | array fl ts elem =>
    intro h
    simp only [validate] at h
    rcases hE : execB .Array asArray Json.arr []
        (ts.map (fun t l => arrCheck t l)) fl path x with e | validated
    · simp [hE] at h
    · simp only [hE] at h
      rcases validated with _ | j
      · obtain ⟨hx, ho⟩ := execB_ok_none hE
        refine ⟨hx, ?_⟩
        simp only [validate, execB_none, if_pos ho]
      · rcases elem with _ | es
        · simp at h
        · rcases ha : asArray j with _ | elements
          · simp [ha] at h
          · simp only [ha] at h
            exact absurd h (validateElems_ne_ok_none es path elements 0 [] [])
  | obj fl fields =>
    intro h
    simp only [validate] at h
    rcases hE : execB .Object asObject Json.obj [] [] fl path x with e | validated
    · simp [hE] at h
    · simp only [hE] at h
      by_cases hfe : fields.isEmpty
      · rw [if_pos hfe] at h
        simp only [Option.some.injEq, Except.ok.injEq] at h
        subst h
        obtain ⟨hx, ho⟩ := execB_ok_none hE
        refine ⟨hx, ?_⟩
        simp only [validate, execB_none, if_pos ho, if_pos hfe]
      · rw [if_neg hfe] at h
        rcases validated with _ | j
        · obtain ⟨hx, ho⟩ := execB_ok_none hE
          refine ⟨hx, ?_⟩
          simp only [validate, execB_none, if_pos ho, if_neg hfe]
        · rcases j with _ | b | n | s | l | flds
          · simp at h
          · simp at h
          · simp at h
          · simp at h
          · simp at h
          · exact absurd h (validateFields_ne_ok_none fields flds [] [])

end Tree

namespace Tree

theorem array_coerce_id (j : Json) : JsonType.Array.coerce j = .ok j := rfl

theorem arrCheck_congr {l1 l2 : List Json} (h : l1.length = l2.length) (t : ArrTest) :
    arrCheck t l1 = arrCheck t l2 := by
  have hh : t.holds l1 = t.holds l2 := by
    cases t <;> simp [ArrTest.holds, h]
  unfold arrCheck
  rw [hh]

theorem arrChecks_filterMap {ts : List ArrTest} {l1 l2 : List Json}
    (h : l1.length = l2.length) :
    (ts.map (fun t l => arrCheck t l)).filterMap (fun ch => ch l2) =
      (ts.map (fun t l => arrCheck t l)).filterMap (fun ch => ch l1) := by
  rw [List.filterMap_map, List.filterMap_map]
  exact List.filterMap_congr (fun t _ => (arrCheck_congr h t).symm)

theorem execB_array_ok_some {checks : List (List Json → Option VErr)} {fl : Flags}
    {path : String} {x : Option Json} {j : Json}
    (h : execB .Array asArray Json.arr [] checks fl path x = .ok (some j)) :
    (x = some .null ∧ fl.nullable = true ∧ j = .null) ∨
    (x = some j ∧ ∃ elements, asArray j = some elements ∧
      checks.filterMap (fun ch => ch elements) = []) := by
  rcases x with _ | xj
  · rw [execB_none] at h
    by_cases ho : fl.optional <;> simp [ho] at h
  · by_cases hn : xj = Json.null
    · subst hn
      rw [execB_some_null] at h
      by_cases hnu : fl.nullable
      · rw [if_pos hnu] at h
        simp only [Except.ok.injEq, Option.some.injEq] at h
        exact Or.inl ⟨rfl, hnu, h.symm⟩
      · rw [if_neg hnu] at h
        obtain ⟨cj, t0, hco, hfj, hch, hv⟩ := execCoerce_ok h
        rw [array_coerce_id] at hco
        have hcj : Json.null = cj := Except.ok.inj hco
        rw [← hcj] at hfj
        exact Option.noConfusion hfj
    · rw [execB_some_non_null _ _ _ _ _ _ _ _ hn] at h
      obtain ⟨cj, t0, hco, hfj, hch, hv⟩ := execCoerce_ok h
      rw [array_coerce_id] at hco
      have hcj : xj = cj := Except.ok.inj hco
      rw [← hcj] at hfj
      simp only [List.foldl_nil] at hch hv
      simp only [Option.some.injEq] at hv
      subst hv
      have hxj : xj = Json.arr t0 := by
        rcases xj with _ | _ | _ | _ | l | _
        all_goals first
          | exact Option.noConfusion hfj
          | (simp only [asArray, Option.some.injEq] at hfj; rw [hfj])
      exact Or.inr ⟨by rw [hxj], t0, rfl, hch⟩

theorem execB_obj_ok_some {fl : Flags} {path : String} {x : Option Json} {j : Json}
    (h : execB .Object asObject Json.obj [] [] fl path x = .ok (some j)) :
    (x = some .null ∧ fl.nullable = true ∧ j = .null) ∨
    (x = some j ∧ ∃ flds, j = .obj flds) := by
  rcases x with _ | xj
  · rw [execB_none] at h
    by_cases ho : fl.optional <;> simp [ho] at h
  · by_cases hn : xj = Json.null
    · subst hn
      rw [execB_some_null] at h
      by_cases hnu : fl.nullable
      · rw [if_pos hnu] at h
        simp only [Except.ok.injEq, Option.some.injEq] at h
        exact Or.inl ⟨rfl, hnu, h.symm⟩
      · rw [if_neg hnu] at h
        obtain ⟨cj, t0, hco, hfj, hch, hv⟩ := execCoerce_ok h
        exact Except.noConfusion hco
    · rw [execB_some_non_null _ _ _ _ _ _ _ _ hn] at h
      obtain ⟨cj, t0, hco, hfj, hch, hv⟩ := execCoerce_ok h
      rcases xj with _ | b | n | s | l | flds
      · exact Except.noConfusion hco
      · exact Except.noConfusion hco
      · exact Except.noConfusion hco
      · exact Except.noConfusion hco
      · exact Except.noConfusion hco
      · have hcj : Json.obj flds = cj := Except.ok.inj hco
        rw [← hcj] at hfj
        simp only [asObject, Option.some.injEq] at hfj
        simp only [List.foldl_nil, Option.some.injEq] at hv
        subst hfj
        subst hv
        exact Or.inr ⟨rfl, flds, rfl⟩

theorem validateElems_errs_ne_ok (es : Schema) (path : String) :
    ∀ (l : List Json) (start : Nat) (outAcc : List Json)
      (errs : List (Nat × VErr)), errs ≠ [] →
      ∀ v, validateElems es path l start outAcc errs ≠ some (.ok v) := by
  intro l
  induction l with
  | nil =>
    intro start outAcc errs he v h
    simp only [validateElems] at h
    rw [if_neg (by simpa using he)] at h
    simp at h
  | cons el rest ih =>
    intro start outAcc errs he v h
    simp only [validateElems] at h
    rcases hr : validate es (childPath path start) (some el) with _ | r
    · rw [hr] at h
      cases h
    · rw [hr] at h
      rcases r with e | w
      · exact ih _ _ _ (by simp) _ h
      · rcases w with _ | w
        · cases h
        · exact ih _ _ _ he _ h

theorem validateFields_errs_ne_ok :
    ∀ (fields : List (String × Schema)) (flds outAcc : List (String × Json))
      (errs : List (String × VErr)), errs ≠ [] →
      ∀ v, validateFields fields flds outAcc errs ≠ some (.ok v) := by
  intro fields
  induction fields with
  | nil =>
    intro flds outAcc errs he v h
    simp only [validateFields] at h
    rw [if_neg (by simpa using he)] at h
    simp at h
  | cons p rest ih =>
    obtain ⟨key, fs⟩ := p
    intro flds outAcc errs he v h
    simp only [validateFields] at h
    rcases hr : validate fs "" (objRemove key flds).1 with _ | r
    · rw [hr] at h
      cases h
    · rw [hr] at h
      rcases r with e | w
      · exact ih _ _ _ (by simp) _ h
      · rcases w with _ | w
        · exact ih _ _ _ he _ h
        · exact ih _ _ _ he _ h

theorem objRemove_snd_mem {key : String} :
    ∀ (l : List (String × Json)) (p : String × Json),
      p ∈ (objRemove key l).2 → p ∈ l := by
  intro l
  induction l with
  | nil => intro p hp; exact absurd hp (by simp [objRemove])
  | cons q rest ih =>
    obtain ⟨k, v⟩ := q
    intro p hp
    by_cases hk : k = key
    · simp only [objRemove, if_pos hk] at hp
      exact List.mem_cons_of_mem _ hp
    · simp only [objRemove, if_neg hk, List.mem_cons] at hp
      rcases hp with hp | hp
      · exact hp ▸ List.mem_cons_self _ _
      · exact List.mem_cons_of_mem _ (ih p hp)

theorem objRemove_fst_mem {key : String} :
    ∀ (l : List (String × Json)) (jv : Json),
      (objRemove key l).1 = some jv → ∃ k, (k, jv) ∈ l := by
  intro l
  induction l with
  | nil => intro jv h; exact Option.noConfusion h
  | cons q rest ih =>
    obtain ⟨k, v⟩ := q
    intro jv h
    by_cases hk : k = key
    · simp only [objRemove, if_pos hk, Option.some.injEq] at h
      exact ⟨k, by rw [h]; exact List.mem_cons_self _ _⟩
    · simp only [objRemove, if_neg hk] at h
      obtain ⟨k2, hk2⟩ := ih jv h
      exact ⟨k2, List.mem_cons_of_mem _ hk2⟩

theorem objRemove_not_mem {key : String} :
    ∀ (l : List (String × Json)), key ∉ l.map Prod.fst →
      objRemove key l = (none, l) := by
  intro l
  induction l with
  | nil => intro _; rfl
  | cons q rest ih =>
    obtain ⟨k, v⟩ := q
    intro hnm
    simp only [List.map_cons, List.mem_cons, not_or] at hnm
    have hk : ¬ k = key := fun hkk => hnm.1 hkk.symm
    simp only [objRemove, if_neg hk, ih hnm.2]

end Tree

namespace Tree

theorem validateElems_reval (es : Schema) (path : String)
    (hstep : ∀ (idx : Nat) (el o : Json), Json.WF el →
      validate es (childPath path idx) (some el) = some (.ok (some o)) →
      validate es (childPath path idx) (some o) = some (.ok (some o))) :
    ∀ (l : List Json) (start : Nat) (outAcc : List Json) (v : Option Json),
      (∀ e ∈ l, Json.WF e) →
      validateElems es path l start outAcc [] = some (.ok v) →
      ∃ tail, v = some (.arr (outAcc ++ tail)) ∧ tail.length = l.length ∧
        ∀ outAcc2, validateElems es path tail start outAcc2 [] =
          some (.ok (some (.arr (outAcc2 ++ tail)))) := by
  intro l
  induction l with
  | nil =>
    intro start outAcc v _ h
    simp only [validateElems, List.isEmpty_nil, if_true, Option.some.injEq,
      Except.ok.injEq] at h
    subst h
    refine ⟨[], by simp, rfl, ?_⟩
    intro outAcc2
    simp [validateElems]
  | cons el rest ih =>
    intro start outAcc v hWF h
    simp only [validateElems] at h
    rcases hr : validate es (childPath path start) (some el) with _ | r
    · rw [hr] at h
      cases h
    · rw [hr] at h
      rcases r with e | w
      · exact absurd h (validateElems_errs_ne_ok es path rest (start + 1) outAcc
          ([] ++ [(start, e)]) (by simp) v)
      · rcases w with _ | value
        · cases h
        · have h' : validateElems es path rest (start + 1) (outAcc ++ [value]) []
              = some (.ok v) := h
          obtain ⟨tail, hv, hlen, hself⟩ := ih (start + 1) (outAcc ++ [value]) v
            (fun e he => hWF e (List.mem_cons_of_mem _ he)) h'
          have hchild2 : validate es (childPath path start) (some value) =
              some (.ok (some value)) :=
            hstep start el value (hWF el (List.mem_cons_self _ _)) hr
          refine ⟨value :: tail, ?_, by simp [hlen], ?_⟩
          · rw [hv, List.append_assoc]
            rfl
          · intro outAcc2
            have hrec := hself (outAcc2 ++ [value])
            rw [List.append_assoc] at hrec
            simp only [validateElems, hchild2]
            exact hrec

theorem validateFields_reval :
    ∀ (fields : List (String × Schema)) (flds : List (String × Json))
      (outAcc : List (String × Json)) (v : Option Json),
      (∀ p ∈ fields, ∀ (x w : Option Json), (∀ j, x = some j → Json.WF j) →
        validate p.2 "" x = some (.ok w) → validate p.2 "" w = some (.ok w)) →
      (∀ p ∈ flds, Json.WF p.2) →
      (fields.map Prod.fst).Nodup →
      validateFields fields flds outAcc [] = some (.ok v) →
      ∃ tail, v = some (.obj (outAcc ++ tail)) ∧
        (∀ k ∈ tail.map Prod.fst, k ∈ fields.map Prod.fst) ∧
        ∀ outAcc2, validateFields fields tail outAcc2 [] =
          some (.ok (some (.obj (outAcc2 ++ tail)))) := by
  intro fields
  induction fields with
  | nil =>
    intro flds outAcc v _ _ _ h
    simp only [validateFields, List.isEmpty_nil, if_true, Option.some.injEq,
      Except.ok.injEq] at h
    subst h
    refine ⟨[], by simp, by simp, ?_⟩
    intro outAcc2
    simp [validateFields]
  | cons p rest ih =>
    obtain ⟨key, fs⟩ := p
    intro flds outAcc v hstep hWF hnd h
    rw [List.map_cons, List.nodup_cons] at hnd
    obtain ⟨hknotin, hndrest⟩ := hnd
    simp only [validateFields] at h
    rcases hr : validate fs "" (objRemove key flds).1 with _ | r
    · rw [hr] at h
      cases h
    · rw [hr] at h
      rcases r with e | w
      · exact absurd h (validateFields_errs_ne_ok rest (objRemove key flds).2 outAcc
          ([] ++ [(key, e)]) (by simp) v)
      · rcases w with _ | value
        · have h' : validateFields rest (objRemove key flds).2 outAcc [] =
              some (.ok v) := h
          obtain ⟨tail, hv, hkeys, hself⟩ := ih (objRemove key flds).2 outAcc v
            (fun p hp => hstep p (List.mem_cons_of_mem _ hp))
            (fun p hp => hWF p (objRemove_snd_mem flds p hp)) hndrest h'
          obtain ⟨hrem, hnone⟩ := validate_ok_none fs "" (objRemove key flds).1 hr
          refine ⟨tail, hv, ?_, ?_⟩
          · intro k hk
            rw [List.map_cons]
            exact List.mem_cons_of_mem _ (hkeys k hk)
          · intro outAcc2
            have hknot : key ∉ tail.map Prod.fst := fun hmem => hknotin (hkeys key hmem)
            simp only [validateFields, objRemove_not_mem tail hknot, hnone]
            exact hself outAcc2
        · have h' : validateFields rest (objRemove key flds).2
              (outAcc ++ [(key, value)]) [] = some (.ok v) := h
          obtain ⟨tail, hv, hkeys, hself⟩ := ih (objRemove key flds).2
            (outAcc ++ [(key, value)]) v
            (fun p hp => hstep p (List.mem_cons_of_mem _ hp))
            (fun p hp => hWF p (objRemove_snd_mem flds p hp)) hndrest h'
          have hWFrem : ∀ j, (objRemove key flds).1 = some j → Json.WF j := by
            intro j hj
            obtain ⟨k2, hk2⟩ := objRemove_fst_mem flds j hj
            exact hWF (k2, j) hk2
          have hchild2 : validate fs "" (some value) = some (.ok (some value)) :=
            hstep (key, fs) (List.mem_cons_self _ _) (objRemove key flds).1
              (some value) hWFrem hr
          have hrem2 : objRemove key ((key, value) :: tail) = (some value, tail) := by
            simp [objRemove]
          refine ⟨(key, value) :: tail, ?_, ?_, ?_⟩
          · rw [hv, List.append_assoc]
            rfl
          · intro k hk
            rw [List.map_cons] at hk ⊢
            rcases List.mem_cons.mp hk with hk | hk
            · exact hk ▸ List.mem_cons_self _ _
            · exact List.mem_cons_of_mem _ (hkeys k hk)
          · intro outAcc2
            have hrec := hself (outAcc2 ++ [(key, value)])
            rw [List.append_assoc] at hrec
            simp only [validateFields, hrem2, hchild2]
            exact hrec

end Tree

/-- C9.  Idempotence of validation: for every schema the library's public
constructors can build (well-formed: each object node's configured keys
pairwise distinct, the `HashMap` invariant) and every well-formed
`serde_json` input (a `NegInt` representation is negative), a successful
validation run yields a fixpoint — re-validating the produced output
through the same schema succeeds and returns the output unchanged:
coercion, transforms and re-serialization are idempotent on
already-normalized values. -/
theorem c9_validate_idempotent {S : Tree.Schema} (hS : Tree.Schema.WFS S) :
    ∀ (path : String) (x v : Option Json),
      (∀ j, x = some j → Json.WF j) →
      Tree.validate S path x = some (.ok v) →
      Tree.validate S path v = some (.ok v) := by
  induction hS with
  | boolean fl =>
    intro path x v hWFx h
    simp only [Tree.validate, Option.some.injEq] at h ⊢
    exact Tree.execB_revalidate (fun _ => True) (fun _ _ _ _ _ _ => trivial)
      (fun t _ => rfl) (fun t _ => rfl) (fun t ht => Json.noConfusion ht)
      (fun t _ => rfl) hWFx h
  | integer fl ts =>
    intro path x v hWFx h
    simp only [Tree.validate, Option.some.injEq] at h ⊢
    exact Tree.execB_revalidate Tree.i64Reach
      (fun j hWF cj t0 hco hfj => Tree.integer_reach j hWF cj t0 hco hfj)
      (fun t hP => Tree.integer_coerce_numOfInt hP)
      (fun t hP => Tree.i64_fromJson_roundTrip hP)
      (fun t ht => Json.noConfusion ht)
      (fun t _ => rfl) hWFx h
  | unsigned fl ts =>
    intro path x v hWFx h
    simp only [Tree.validate, Option.some.injEq] at h ⊢
    exact Tree.execB_revalidate (fun _ => True) (fun _ _ _ _ _ _ => trivial)
      (fun t _ => rfl) (fun t _ => rfl) (fun t ht => Json.noConfusion ht)
      (fun t _ => rfl) hWFx h
  | float fl ts =>
    intro path x v hWFx h
    simp only [Tree.validate, Option.some.injEq] at h ⊢
    exact Tree.execB_revalidate (fun _ => True) (fun _ _ _ _ _ _ => trivial)
      (fun t _ => rfl) (fun t _ => rfl) (fun t ht => Json.noConfusion ht)
      (fun t _ => rfl) hWFx h
  | string fl trs ts =>
    intro path x v hWFx h
    simp only [Tree.validate, Option.some.injEq] at h ⊢
    exact Tree.execB_revalidate (fun s => Tree.applyTransforms trs s = s)
      (fun j hWF cj t0 hco hfj => by
        simp only [Tree.foldl_map_apply]
        exact Tree.applyTransforms_idem trs t0)
      (fun t hP => rfl) (fun t hP => rfl)
      (fun t ht => Json.noConfusion ht)
      (fun t hP => by simp only [Tree.foldl_map_apply]; exact hP) hWFx h
  | arrayNone fl ts =>
    intro path x v hWFx h
    simp only [Tree.validate] at h
    rcases hE : Tree.execB .Array Tree.asArray Json.arr []
        (ts.map (fun t l => Tree.arrCheck t l)) fl path x with e | validated
    · simp [hE] at h
    · simp only [hE] at h
      rcases validated with _ | j
      · simp only [Option.some.injEq, Except.ok.injEq] at h
        subst h
        obtain ⟨hx, ho⟩ := Tree.execB_ok_none hE
        simp only [Tree.validate, Tree.execB_none, if_pos ho]
      · simp only [Option.some.injEq, Except.ok.injEq] at h
        subst h
        have hE2 : Tree.execB .Array Tree.asArray Json.arr []
            (ts.map (fun t l => Tree.arrCheck t l)) fl path (some j) =
              .ok (some j) :=
          Tree.execB_revalidate (fun _ => True)
            (fun _ _ _ _ _ _ => trivial)
            (fun t _ => Tree.array_coerce_id _)
            (fun t _ => rfl)
            (fun t ht => Json.noConfusion ht)
            (fun t _ => rfl) hWFx hE
        simp only [Tree.validate, hE2]
  | arraySome fl ts es hes ih =>
    intro path x v hWFx h
    simp only [Tree.validate] at h
    rcases hE : Tree.execB .Array Tree.asArray Json.arr []
        (ts.map (fun t l => Tree.arrCheck t l)) fl path x with e | validated
    · simp [hE] at h
    · simp only [hE] at h
      rcases validated with _ | j
      · simp only [Option.some.injEq, Except.ok.injEq] at h
        subst h
        obtain ⟨hx, ho⟩ := Tree.execB_ok_none hE
        simp only [Tree.validate, Tree.execB_none, if_pos ho]
      · rcases ha : Tree.asArray j with _ | elements
        · simp only [ha] at h
          exact Option.noConfusion h
        · simp only [ha] at h
          rcases Tree.execB_array_ok_some hE with ⟨hxnull, hnul, hj⟩ | ⟨hxj, t0, ht0, hch⟩
          · rw [hj] at ha
            exact Option.noConfusion ha
          · rw [ha] at ht0
            cases Option.some.inj ht0
            have hj_arr : j = Json.arr elements := by
              rcases j with _ | _ | _ | _ | l | _
              all_goals first
                | exact Option.noConfusion ha
                | (simp only [Tree.asArray, Option.some.injEq] at ha; rw [ha])
            have hWFel : ∀ e ∈ elements, Json.WF e := by
              have hWFj := hWFx j hxj
              rw [hj_arr] at hWFj
              cases hWFj with
              | arr _ hall2 => exact hall2
            have hstep : ∀ (idx : Nat) (el o : Json), Json.WF el →
                Tree.validate es (Tree.childPath path idx) (some el) =
                  some (.ok (some o)) →
                Tree.validate es (Tree.childPath path idx) (some o) =
                  some (.ok (some o)) :=
              fun idx el o hWFel2 hrun =>
                ih (Tree.childPath path idx) (some el) (some o)
                  (fun jj hjj => Option.some.inj hjj ▸ hWFel2) hrun
            obtain ⟨tail, hv, hlen, hself⟩ :=
              Tree.validateElems_reval es path hstep elements 0 [] v hWFel h
            simp only [List.nil_append] at hv
            subst hv
            have hch2 : (ts.map (fun t l => Tree.arrCheck t l)).filterMap
                (fun ch => ch tail) = [] := by
              rw [Tree.arrChecks_filterMap hlen.symm]
              exact hch
            have hE2 : Tree.execB .Array Tree.asArray Json.arr []
                (ts.map (fun t l => Tree.arrCheck t l)) fl path
                (some (.arr tail)) = .ok (some (.arr tail)) := by
              rw [Tree.execB_some_non_null _ _ _ _ _ _ _ _
                (fun hc => Json.noConfusion hc)]
              exact Tree.execCoerce_fixpoint (Tree.array_coerce_id _) rfl rfl hch2
            simp only [Tree.validate, hE2, Tree.asArray]
            have hs := hself []
            rw [List.nil_append] at hs
            exact hs
  | obj fl fields hnd hall ih =>
    intro path x v hWFx h
    simp only [Tree.validate] at h
    rcases hE : Tree.execB .Object Tree.asObject Json.obj [] [] fl path x
      with e | validated
    · simp [hE] at h
    · simp only [hE] at h
      by_cases hfe : fields.isEmpty
      · rw [if_pos hfe] at h
        simp only [Option.some.injEq, Except.ok.injEq] at h
        subst h
        have hE2 : Tree.execB .Object Tree.asObject Json.obj [] [] fl path
            validated = .ok validated :=
          Tree.execB_revalidate (fun _ => True)
            (fun _ _ _ _ _ _ => trivial)
            (fun t _ => rfl) (fun t _ => rfl)
            (fun t ht => Json.noConfusion ht) (fun t _ => rfl) hWFx hE
        simp only [Tree.validate, hE2, if_pos hfe]
      · rw [if_neg hfe] at h
        rcases validated with _ | j
        · simp only [Option.some.injEq, Except.ok.injEq] at h
          subst h
          obtain ⟨hx, ho⟩ := Tree.execB_ok_none hE
          simp only [Tree.validate, Tree.execB_none, if_pos ho, if_neg hfe]
        · rcases Tree.execB_obj_ok_some hE with ⟨hxnull, hnul, hj⟩ | ⟨hxj, flds, hflds⟩
          · subst hj
            have h' : (some (.ok (some Json.null)) :
                Option (Except Tree.VErr (Option Json))) = some (.ok v) := h
            simp only [Option.some.injEq, Except.ok.injEq] at h'
            subst h'
            have hE2 : Tree.execB .Object Tree.asObject Json.obj [] [] fl path
                (some .null) = .ok (some .null) := by
              rw [Tree.execB_some_null, if_pos hnul]
            simp only [Tree.validate, hE2, if_neg hfe]
          · subst hflds
            have h' : Tree.validateFields fields flds [] [] = some (.ok v) := h
            have hWFflds : ∀ p ∈ flds, Json.WF p.2 := by
              have hWFj := hWFx _ hxj
              cases hWFj with
              | obj _ hall2 => exact hall2
            have hstep : ∀ p ∈ fields, ∀ (x2 w : Option Json),
                (∀ j2, x2 = some j2 → Json.WF j2) →
                Tree.validate p.2 "" x2 = some (.ok w) →
                Tree.validate p.2 "" w = some (.ok w) :=
              fun p hp x2 w hWF2 hrun => ih p hp "" x2 w hWF2 hrun
            obtain ⟨tail, hv, hkeys, hself⟩ :=
              Tree.validateFields_reval fields flds [] v hstep hWFflds hnd h'
            simp only [List.nil_append] at hv
            subst hv
            have hE2 : Tree.execB .Object Tree.asObject Json.obj [] [] fl path
                (some (.obj tail)) = .ok (some (.obj tail)) := by
              rw [Tree.execB_some_non_null _ _ _ _ _ _ _ _
                (fun hc => Json.noConfusion hc)]
              exact Tree.execCoerce_fixpoint rfl rfl rfl rfl
            simp only [Tree.validate, hE2, if_neg hfe]
            have hs := hself []
            rw [List.nil_append] at hs
            exact hs

/-- Witness for C9: `string().trim()` maps `" x "` to `"x"` on its
well-formed input, and re-validating `"x"` returns `"x"` by the
idempotence theorem. -/
theorem c9_witness :
    Tree.Schema.WFS (.string Tree.Flags.new [.trim] []) ∧
    Tree.validate (.string Tree.Flags.new [.trim] []) "" (some (.str " x ")) =
      some (.ok (some (.str "x"))) ∧
    Tree.validate (.string Tree.Flags.new [.trim] []) "" (some (.str "x")) =
      some (.ok (some (.str "x"))) :=
  have h1 : Tree.validate (.string Tree.Flags.new [.trim] []) ""
      (some (.str " x ")) = some (.ok (some (.str "x"))) := by
    simp only [Tree.validate]
    rfl
  ⟨.string _ _ _, h1,
    c9_validate_idempotent (.string _ _ _) "" (some (.str " x "))
      (some (.str "x"))
      (fun j hj => Option.some.inj hj ▸ Json.WF.str " x ") h1⟩
